import Mathlib

/-!
Verification development for the core of the `word_core` crate of a
Wordle-style solver.  Words of length `WORD_SIZE` over an alphabet of size
`ALPHABET_SIZE` are modelled as `List ℕ` (the Rust code fixes the length and
the character bound by const generics `Word<WORD_SIZE, ALPHABET_SIZE>`; the
corresponding facts appear as hypotheses of theorems).  The `f64` costs of the
decision-tree solver are modelled as `ℚ`, and the bit-packed boolean `Column`
is modelled by its list of boolean entries.  Fallible operations (Rust panics:
out-of-range indexing, length-mismatched bitwise ops) return `Option`.
-/

/-- `CharHint` from `hint.rs`: the per-position feedback symbol. -/
inductive CharHint where
  | Correct
  | Elsewhere
  | Nowhere
deriving DecidableEq, Repr

/-- `Word::count_chr` from `word.rs`: how many of the given char are in the word. -/
def count_chr (w : List ℕ) (chr : ℕ) : ℕ :=
  (w.filter (fun self_chr => self_chr = chr)).length

/-- First phase of `WordHint::from_guess_and_answer` (`hint.rs`): initialise all
hints to `Nowhere`, then mark `Correct` wherever guess and answer agree. -/
def char_hints_init (g a : List ℕ) : List CharHint :=
  List.zipWith (fun gc ac => if ac = gc then CharHint.Correct else CharHint.Nowhere) g a

/-- `missed_answer_char_counts` of `from_guess_and_answer`: for an answer char
`c`, at how many positions the guess missed it. -/
def missed_answer_char_count (g a : List ℕ) (c : ℕ) : ℕ :=
  ((List.range g.length).filter
    (fun i => a.getD i 0 = c ∧ ¬(a.getD i 0 = g.getD i 0))).length

/-- `incorrect_guess_char_inds` of `from_guess_and_answer`: the indices (in
increasing order) where the guess shows `c` but the answer differs. -/
def incorrect_guess_char_inds (g a : List ℕ) (c : ℕ) : List ℕ :=
  (List.range g.length).filter
    (fun i => g.getD i 0 = c ∧ ¬(a.getD i 0 = g.getD i 0))

/-- The inner marking loop of `from_guess_and_answer`: set each listed index to
`Elsewhere`. -/
def mark_elsewhere (hs : List CharHint) (inds : List ℕ) : List CharHint :=
  inds.foldl (fun acc i => acc.set i CharHint.Elsewhere) hs

/-- `WordHint::from_guess_and_answer` from `hint.rs`: two-pass Wordle hint
derivation.  The second pass iterates over the missed answer characters (one
entry per character; the iteration order of the Rust `HashMap` is immaterial
because distinct characters mark disjoint positions) and sets the first
`min(num_missed, |inds|)` incorrect guess positions of that character to
`Elsewhere`. -/
def from_guess_and_answer (g a : List ℕ) : List CharHint :=
  a.dedup.foldl
    (fun hs c =>
      let inds := incorrect_guess_char_inds g a c
      mark_elsewhere hs (inds.take (min (missed_answer_char_count g a c) inds.length)))
    (char_hints_init g a)

/-- The index set actually marked `Elsewhere` for char `c` by
`from_guess_and_answer`: the first `min(num_missed, |inds|)` incorrect guess
positions of `c`. -/
def marked_inds (g a : List ℕ) (c : ℕ) : List ℕ :=
  (incorrect_guess_char_inds g a c).take
    (min (missed_answer_char_count g a c) (incorrect_guess_char_inds g a c).length)

/-- Rank of position `i` among the incorrect guess positions of its own
char: the number of earlier positions showing the same guess char that the
answer misses. -/
def hint_rank (g a : List ℕ) (i : ℕ) : ℕ :=
  ((List.range i).filter
    (fun j => g.getD j 0 = g.getD i 0 ∧ ¬(a.getD j 0 = g.getD j 0))).length

/-- `WordHint::all_correct` from `hint.rs`. -/
def all_correct (hs : List CharHint) : Bool :=
  decide (hs = List.replicate hs.length CharHint.Correct)

/-- The scanning loop of `clue_possible` (`query_generation.rs`), with the
accumulated set `nowhere_chars` as an explicit list. -/
def clue_possible_go (g : List ℕ) (h : List CharHint) :
    List ℕ → List ℕ → Bool
  | _, [] => true
  | nowhere_chars, i :: rest =>
    match h.getD i CharHint.Correct with
    | CharHint.Nowhere => clue_possible_go g h (g.getD i 0 :: nowhere_chars) rest
    | CharHint.Elsewhere =>
      if nowhere_chars.contains (g.getD i 0) then false
      else clue_possible_go g h nowhere_chars rest
    | CharHint.Correct => clue_possible_go g h nowhere_chars rest

/-- `clue_possible` from `query_generation.rs`: scan left to right, recording
chars hinted `Nowhere`; fail on an `Elsewhere` hint for a char already
recorded. -/
def clue_possible (g : List ℕ) (h : List CharHint) : Bool :=
  clue_possible_go g h [] (List.range g.length)

/-- `Query` from `word_search.rs`. -/
inductive Query where
  | Match (ind : ℕ) (chr : ℕ)
  | CountExact (count : ℕ) (chr : ℕ)
  | CountAtLeast (count : ℕ) (chr : ℕ)
  | Not (q : Query)
  | And (qs : List Query)
  | Or (qs : List Query)

/-- `num_per_char_by_hint` of `clue_to_query` (`query_generation.rs`): at how
many positions the guess shows char `c` with hint `ch`. -/
def num_per_char_hint (g : List ℕ) (h : List CharHint) (c : ℕ) (ch : CharHint) : ℕ :=
  ((List.range g.length).filter
    (fun i => g.getD i 0 = c ∧ h.getD i CharHint.Correct = ch)).length

/-- `incorrect_chars` of `clue_to_query`: the chars touched by a non-`Correct`
hint (the Rust `HashSet` is modelled as a first-occurrence-ordered
duplicate-free list; only membership matters downstream, up to reordering the
conjuncts of the final `And`). -/
def incorrect_chars (g : List ℕ) (h : List CharHint) : List ℕ :=
  (((List.range g.length).filter
      (fun i => ¬(h.getD i CharHint.Correct = CharHint.Correct))).map
    (fun i => g.getD i 0)).dedup

/-- `clue_to_query` from `query_generation.rs`: positional facts for every
hint, then count facts for every char touched by a non-`Correct` hint. -/
def clue_to_query (g : List ℕ) (h : List CharHint) : Query :=
  Query.And (
    ((List.range g.length).map (fun ind =>
      match h.getD ind CharHint.Correct with
      | CharHint.Correct => Query.Match ind (g.getD ind 0)
      | CharHint.Elsewhere => Query.Not (Query.Match ind (g.getD ind 0))
      | CharHint.Nowhere => Query.Not (Query.Match ind (g.getD ind 0))))
    ++ (incorrect_chars g h).flatMap (fun c =>
      if 0 < num_per_char_hint g h c CharHint.Nowhere then
        [Query.CountExact
          (num_per_char_hint g h c CharHint.Correct
            + num_per_char_hint g h c CharHint.Elsewhere) c]
      else if 0 < num_per_char_hint g h c CharHint.Elsewhere then
        [Query.CountAtLeast
          (num_per_char_hint g h c CharHint.Correct
            + num_per_char_hint g h c CharHint.Elsewhere) c]
      else []))

mutual

/-- Reference pointwise semantics of a `Query` on a single word: `Match` reads
the char at `ind`, the count queries use `Word::count_chr`, and the
combinators are boolean.  (Used to state what the columnar engine computes.) -/
def query_holds : Query → List ℕ → Bool
  | Query.Match ind chr, w => decide (w.getD ind 0 = chr)
  | Query.CountExact count chr, w => decide (count_chr w chr = count)
  | Query.CountAtLeast count chr, w => decide (count ≤ count_chr w chr)
  | Query.Not q, w => !(query_holds q w)
  | Query.And qs, w => query_holds_all qs w
  | Query.Or qs, w => query_holds_any qs w

/-- Conjunction of `query_holds` over a list of queries. -/
def query_holds_all : List Query → List ℕ → Bool
  | [], _ => true
  | q :: rest, w => query_holds q w && query_holds_all rest w

/-- Disjunction of `query_holds` over a list of queries. -/
def query_holds_any : List Query → List ℕ → Bool
  | [], _ => false
  | q :: rest, w => query_holds q w || query_holds_any rest w

end

/-- The in-bounds discipline of C10 on queries: every `Match` has
`ind < WORD_SIZE` and `chr < ALPHABET_SIZE`, and every count query has
`count ≤ WORD_SIZE` and `chr < ALPHABET_SIZE`. -/
inductive query_in_bounds (W A : ℕ) : Query → Prop where
  | match_ok : ∀ ind chr, ind < W → chr < A → query_in_bounds W A (Query.Match ind chr)
  | count_exact_ok : ∀ count chr, count ≤ W → chr < A →
      query_in_bounds W A (Query.CountExact count chr)
  | count_at_least_ok : ∀ count chr, count ≤ W → chr < A →
      query_in_bounds W A (Query.CountAtLeast count chr)
  | not_ok : ∀ q, query_in_bounds W A q → query_in_bounds W A (Query.Not q)
  | and_ok : ∀ qs, (∀ q ∈ qs, query_in_bounds W A q) →
      query_in_bounds W A (Query.And qs)
  | or_ok : ∀ qs, (∀ q ∈ qs, query_in_bounds W A q) →
      query_in_bounds W A (Query.Or qs)

/-- `dumb_search_words` from `dumb_word_search.rs`: keep the words whose
derived hint equals the observed one. -/
def dumb_search_words (words : List (List ℕ)) (guess : List ℕ)
    (word_hint : List CharHint) : List (List ℕ) :=
  words.filter (fun word => from_guess_and_answer guess word = word_hint)

/-- `Column` from `column.rs`, modelled by its list of boolean entries (the
`u64` bit packing is a representation detail; padding bits never influence the
semantic observations modelled here). -/
abbrev Column := List Bool

/-- `Column::from_true`. -/
def Column.from_true (len : ℕ) : Column := List.replicate len true

/-- `Column::from_false`. -/
def Column.from_false (len : ℕ) : Column := List.replicate len false

/-- `Column::from_bools`. -/
def Column.from_bools (bools : List Bool) : Column := bools

/-- `Column::one_hot_values`: start from `max_val` all-false columns and set
bit `i` of column `values[i]` for each row `i`.  (At every use site
`values[i] < max_val`, so the Rust indexing `cols[*val]` cannot panic; the
out-of-range `List.set`/`List.getD` cases are never exercised.) -/
def Column.one_hot_values (values : List ℕ) (max_val : ℕ) : List Column :=
  values.enum.foldl
    (fun cols iv => cols.set iv.2 ((cols.getD iv.2 []).set iv.1 true))
    (List.replicate max_val (Column.from_false values.length))

/-- `Column::true_inds`. -/
def Column.true_inds (c : Column) : List ℕ :=
  (List.range c.length).filter (fun i => c.getD i false)

/-- `Column::bitand_assign` (`&=`): panics — here `none` — on unequal lengths. -/
def Column.bitand (a b : Column) : Option Column :=
  if a.length = b.length then some (List.zipWith and a b) else none

/-- `Column::bitor_assign` (`|=`): panics — here `none` — on unequal lengths. -/
def Column.bitor (a b : Column) : Option Column :=
  if a.length = b.length then some (List.zipWith or a b) else none

/-- `Column::not` (unary `!`). -/
def Column.negate (a : Column) : Column := a.map (fun x => !x)

/-- `SearchableWords` from `word_search.rs`.  The const generics `WORD_SIZE`
and `ALPHABET_SIZE` become the fields `word_size` and `alphabet_size`. -/
structure SearchableWords where
  word_size : ℕ
  alphabet_size : ℕ
  words : List (List ℕ)
  columns : List Column

/-- The per-character column block built by `SearchableWords::build`: `W`
positional match columns, then the `W+1` one-hot exact-count columns, then the
at-least-count columns for thresholds `1..W-1`. -/
def char_block (W : ℕ) (words : List (List ℕ)) (chr : ℕ) : List Column :=
  ((List.range W).map (fun ind =>
    Column.from_bools (words.map (fun word => decide (word.getD ind 0 = chr)))))
  ++ Column.one_hot_values (words.map (fun word => count_chr word chr)) (W + 1)
  ++ ((List.range' 1 (W - 1)).map (fun threshold_count =>
    Column.from_bools (words.map (fun word =>
      decide (threshold_count ≤ count_chr word chr)))))

/-- `SearchableWords::build` from `word_search.rs`. -/
def SearchableWords.build (W A : ℕ) (words : List (List ℕ)) : SearchableWords :=
  { word_size := W
    alphabet_size := A
    words := words
    columns := (List.range A).flatMap (char_block W words) }

/-- The `Query::CountExact` column lookup of `eval_query` (`word_search.rs`).
It is shared between the `CountExact` arm and the `count == WORD_SIZE` arm of
`CountAtLeast` (the Rust code expresses the latter as the recursive call
`self.eval_query(Query::CountExact { count, chr })`, which evaluates to
exactly this lookup; sharing the helper keeps the recursion structural). -/
def count_exact_col (sw : SearchableWords) (count chr : ℕ) : Option Column :=
  sw.columns.get? (sw.word_size * 3 * chr + sw.word_size + count)

mutual

/-- `SearchableWords::eval_query` from `word_search.rs`.  Column lookups are
`Vec` indexing (panic — `none` — when out of range); `And`/`Or` fold `&=`/`|=`
over an all-true/all-false accumulator. -/
def eval_query (sw : SearchableWords) : Query → Option Column
  | Query.Match ind chr =>
    sw.columns.get? (sw.word_size * 3 * chr + ind)
  | Query.CountExact count chr =>
    count_exact_col sw count chr
  | Query.CountAtLeast count chr =>
    if count = 0 then some (Column.from_true sw.words.length)
    else if count = sw.word_size then count_exact_col sw count chr
    else sw.columns.get? (sw.word_size * 3 * chr + sw.word_size * 2 + 1 + count - 1)
  | Query.Not q => (eval_query sw q).map Column.negate
  | Query.And qs => eval_query_fold_and sw qs (some (Column.from_true sw.words.length))
  | Query.Or qs => eval_query_fold_or sw qs (some (Column.from_false sw.words.length))

/-- The `And` fold of `eval_query`. -/
def eval_query_fold_and (sw : SearchableWords) :
    List Query → Option Column → Option Column
  | [], acc => acc
  | q :: rest, acc =>
    eval_query_fold_and sw rest
      (match acc, eval_query sw q with
       | some a, some b => Column.bitand a b
       | _, _ => none)

/-- The `Or` fold of `eval_query`. -/
def eval_query_fold_or (sw : SearchableWords) :
    List Query → Option Column → Option Column
  | [], acc => acc
  | q :: rest, acc =>
    eval_query_fold_or sw rest
      (match acc, eval_query sw q with
       | some a, some b => Column.bitor a b
       | _, _ => none)

end

/-- `SearchableWords::filter_words` from `word_search.rs`. -/
def filter_words (sw : SearchableWords) (mask : Column) : List (List ℕ) :=
  mask.true_inds.map (fun ind => sw.words.getD ind [])

/-- `GuessFrom` from `decision_tree_general.rs`. -/
inductive GuessFrom where
  | Guess (ind : ℕ)
  | Answer (ind : ℕ)
deriving DecidableEq, Repr

/-- `TreeNode` from `decision_tree_general.rs`; the `HashMap<u8, TreeNode>` of
children is modelled as an association list in insertion order. -/
inductive TreeNode where
  | mk (should_guess : GuessFrom) (est_cost : ℚ) (next : List (ℕ × TreeNode))

/-- Field accessor for `TreeNode.should_guess`. -/
def TreeNode.should_guess : TreeNode → GuessFrom
  | TreeNode.mk g _ _ => g

/-- Field accessor for `TreeNode.est_cost`. -/
def TreeNode.est_cost : TreeNode → ℚ
  | TreeNode.mk _ c _ => c

/-- Field accessor for `TreeNode.next`. -/
def TreeNode.next : TreeNode → List (ℕ × TreeNode)
  | TreeNode.mk _ _ n => n

mutual

/-- Number of nodes on the longest root-to-leaf path of a decision tree. -/
def TreeNode.maxPathLen : TreeNode → ℕ
  | TreeNode.mk _ _ next => 1 + TreeNode.maxPathLenList next

/-- Longest path among a list of child subtrees (0 for no children). -/
def TreeNode.maxPathLenList : List (ℕ × TreeNode) → ℕ
  | [] => 0
  | (_, t) :: rest => max t.maxPathLen (TreeNode.maxPathLenList rest)

end

/-- The running-cost update of the class loop of
`compute_decision_tree_aggressive` (`decision_tree_general.rs`, the body of
the `if let Some(child_tree_node) = …` branch): add
`child_est_cost_scaled - child_est_cost_lower_bound` to the running estimated
cost, but only when its absolute value exceeds `1e-6`. -/
def apply_child_cost (running child_est hint_likelihood child_lower_bound : ℚ) : ℚ :=
  let child_est_cost_scaled := child_est * hint_likelihood
  if 1 / 1000000 < |child_est_cost_scaled - child_lower_bound| then
    running + (child_est_cost_scaled - child_lower_bound)
  else running

/-- `most_answers_for_any_hint` of the guess-ordering pass of
`compute_decision_tree_aggressive`: the size of the largest class of the
partition of `answers` by the hint row `guess_hints`. -/
def most_answers_for_any_hint (guess_hints : List ℕ) (answers : List ℕ) : ℕ :=
  ((answers.map (fun a => guess_hints.getD a 0)).dedup.map
    (fun hint => (answers.filter (fun a => guess_hints.getD a 0 = hint)).length)).foldr
    max 0

/-- The guess ordering of `compute_decision_tree_aggressive`: rank the guesses
by the size of the largest class of their partition, ascending, filtering out
useless guesses (largest class covers every answer).  The Rust
`sort_unstable_by` does not specify the order of ties; stable `mergeSort` is
one realization of it. -/
def guess_order (hints : List (List ℕ)) (answers : List ℕ) : List ℕ :=
  (((((List.range hints.length).map
        (fun guess_ind =>
          (guess_ind, most_answers_for_any_hint (hints.getD guess_ind []) answers))).filter
      (fun p => ¬(p.2 = answers.length))).mergeSort
    (fun p q => p.2 ≤ q.2)).map Prod.fst)

/-- The useless-guess check of `compute_decision_tree_aggressive`: every
remaining answer yields the same hint as the first one. -/
def guess_is_useless (guess_hints : List ℕ) (answers : List ℕ) : Bool :=
  answers.all (fun a => guess_hints.getD a 0 = guess_hints.getD answers.headI 0)

/-- `answers_by_hint` of `compute_decision_tree_aggressive`: partition the
answers by their hint for the current guess.  The Rust `HashMap` is modelled
as an association list keyed in first-occurrence order, each class keeping the
answers in iteration order. -/
def answers_by_hint (guess_hints : List ℕ) (answers : List ℕ) : List (ℕ × List ℕ) :=
  (answers.map (fun a => guess_hints.getD a 0)).dedup.map
    (fun hint => (hint, answers.filter (fun a => guess_hints.getD a 0 = hint)))

/-- The class loop of `compute_decision_tree_aggressive`
(`decision_tree_general.rs`): add up estimated cost across all hint classes,
weighted by likelihood; `recur` is the recursive solver call for the child
game state (one depth level down), and `none` abandons the guess
(`continue 'guess_loop`). -/
def ctda_process_classes_go (recur : List ℕ → ℚ → Option TreeNode)
    (possible_answers : List ℕ) (guess_max_est_cost : ℚ) :
    List (ℕ × List ℕ) → TreeNode → Option TreeNode
  | [], guess => some guess
  | (hint, hint_possible_answers) :: rest, guess =>
    -- If we happened to guess correctly, there is no additional cost
    if hint = 0 then
      ctda_process_classes_go recur possible_answers guess_max_est_cost rest guess
    else
      let hint_likelihood : ℚ :=
        (hint_possible_answers.length : ℚ) / (possible_answers.length : ℚ)
      -- Reconstruct the lower bound we made earlier, for this specific hint
      let child_est_cost_lower_bound : ℚ :=
        (2 * (hint_possible_answers.length : ℚ) - 1) / (possible_answers.length : ℚ)
      -- Compute how much "budget" we have at our level for total est cost
      let remaining_est_cost_budget :=
        guess_max_est_cost - guess.est_cost + child_est_cost_lower_bound
      -- Compute the child's est cost based on hint probability
      let child_max_est_cost := remaining_est_cost_budget / hint_likelihood
      -- Find the child node for this clue
      match recur hint_possible_answers child_max_est_cost with
      | none => none
      | some child_tree_node =>
        let guess' := TreeNode.mk guess.should_guess
          (apply_child_cost guess.est_cost child_tree_node.est_cost hint_likelihood
            child_est_cost_lower_bound)
          (guess.next ++ [(hint, child_tree_node)])
        if guess_max_est_cost ≤ guess'.est_cost then none
        else
          ctda_process_classes_go recur possible_answers guess_max_est_cost rest guess'

/-- The `'guess_loop` of `compute_decision_tree_aggressive`, iterating over the
ordered candidate guesses while tracking the best node so far and
`guess_max_est_cost`; `recur` is the recursive solver call for child game
states. -/
def ctda_guess_loop_go (recur : List ℕ → ℚ → Option TreeNode)
    (hints : List (List ℕ)) (possible_answers : List ℕ) :
    List ℕ → Option TreeNode → ℚ → Option TreeNode
  | [], best, _ => best
  | guess_ind :: rest, best, guess_max_est_cost =>
    let guess_hints := hints.getD guess_ind []
    -- Check first if this guess is useless
    if guess_is_useless guess_hints possible_answers then
      ctda_guess_loop_go recur hints possible_answers rest best guess_max_est_cost
    else
      -- Build map from possible hint to possible answers
      let classes := answers_by_hint guess_hints possible_answers
      let correct_hint_present := classes.any (fun p => p.1 = 0)
      -- Convert into list of tuples, ordered by number of answers ascending
      let hints_answers := classes.mergeSort (fun p q => p.2.length ≤ q.2.length)
      -- Set lower bound on estimated cost given what we know so far
      let est_cost_lower_bound : ℚ :=
        if correct_hint_present then
          3 - (((hints_answers.length : ℚ) + 1) / (possible_answers.length : ℚ))
        else
          3 - ((hints_answers.length : ℚ) / (possible_answers.length : ℚ))
      if guess_max_est_cost ≤ est_cost_lower_bound then
        ctda_guess_loop_go recur hints possible_answers rest best guess_max_est_cost
      else
        -- Reorder hints: classes of size at least 3 first, 1s & 2s in the back
        let rotated :=
          match hints_answers.findIdx? (fun p => 3 ≤ p.2.length) with
          | some split_ind => hints_answers.rotateLeft split_ind
          | none => hints_answers
        match ctda_process_classes_go recur possible_answers guess_max_est_cost rotated
            (TreeNode.mk (GuessFrom.Guess guess_ind) est_cost_lower_bound []) with
        | none =>
          ctda_guess_loop_go recur hints possible_answers rest best guess_max_est_cost
        | some guess =>
          -- Evaluate if this guess beats the current best guess
          let this_guess_is_new_best : Bool :=
            match best with
            | some best_guess => decide (guess.est_cost < best_guess.est_cost)
            | none => true
          if this_guess_is_new_best then
            ctda_guess_loop_go recur hints possible_answers rest (some guess)
              guess.est_cost
          else
            ctda_guess_loop_go recur hints possible_answers rest best guess_max_est_cost

/-- The body of `compute_decision_tree_aggressive` from
`decision_tree_general.rs`, by structural recursion on `fuel`, the number of
times `depth` (a wrapping `u8`, modelled as `depth % 256`) may still be
incremented before reaching `max_depth % 256`.  The recursion of the Rust
function strictly decreases exactly this quantity, and the wrapper below
passes exactly this quantity, so the `fuel = 0` clause is only ever taken
when `depth == max_depth`, where the Rust function also returns `None`.  The
`HashSet<u16>` of possible answers is modelled as a `List ℕ` in the set's
iteration order; costs (`f64`) are `ℚ`.  The optional `DebugPrinter` only
prints and is omitted. -/
def ctda_go : ℕ → List (List ℕ) → List ℕ → ℕ → ℕ → ℚ → Option TreeNode
  | 0, _, _, _, _, _ => none
  | fuel + 1, hints, possible_answers, depth, max_depth, max_cost =>
    let d := depth % 256
    let m := max_depth % 256
    -- Don't continue if we've already hit depth limit
    if d = m then none
    -- Don't continue if we've already hit cost limit
    else if max_cost < 1 then none
    -- Shortcut - if only one option left, just guess it
    else if possible_answers.length = 1 then
      some (TreeNode.mk (GuessFrom.Answer possible_answers.headI) 1 [])
    -- Don't continue if we aren't guaranteed to avoid depth limit
    else if d = (m + 255) % 256 then none
    -- Don't continue if we aren't guaranteed to avoid cost limit
    else if max_cost < 3 / 2 then none
    -- Shortcut - if only two options left, just guess one of them
    else if possible_answers.length = 2 then
      let possible_answer_a := possible_answers.getD 0 0
      let possible_answer_b := possible_answers.getD 1 0
      some (TreeNode.mk (GuessFrom.Answer possible_answer_a) (3 / 2)
        [((hints.getD possible_answer_a []).getD possible_answer_b 0,
          TreeNode.mk (GuessFrom.Answer possible_answer_b) 1 [])])
    -- Go through every possible guess and determine which is the best
    else
      ctda_guess_loop_go
        (fun hint_possible_answers child_max_est_cost =>
          ctda_go fuel hints hint_possible_answers (d + 1) m child_max_est_cost)
        hints possible_answers (guess_order hints possible_answers) none max_cost

/-- `compute_decision_tree_aggressive` from `decision_tree_general.rs`:
`ctda_go` supplied with exactly the number of depth increments available
before the wrapping `u8` `depth` reaches `max_depth`. -/
def compute_decision_tree_aggressive (hints : List (List ℕ)) (possible_answers : List ℕ)
    (depth max_depth : ℕ) (max_cost : ℚ) : Option TreeNode :=
  ctda_go ((max_depth % 256 + 256 - depth % 256) % 256) hints possible_answers
    depth max_depth max_cost

/-! ## Generic list lemmas -/

theorem foldl_set_getD {α : Type} (a : α) :
    ∀ (idxs : List ℕ) (l : List α) (i : ℕ) (d : α),
      (idxs.foldl (fun acc j => acc.set j a) l).getD i d
        = if i ∈ idxs ∧ i < l.length then a else l.getD i d := by
  intro idxs
  induction idxs with
  | nil => intro l i d; simp
  | cons j rest ih =>
    intro l i d
    simp only [List.foldl_cons]
    rw [ih]
    simp only [List.length_set, List.mem_cons]
    by_cases hlen : i < l.length
    · by_cases hmem : i ∈ rest
      · simp [hmem, hlen]
      · by_cases hij : i = j
        · subst hij
          simp [hmem, hlen, List.getD_eq_getElem?_getD, List.getElem?_set_self hlen]
        · simp [hmem, hij, hlen, List.getD_eq_getElem?_getD,
            List.getElem?_set_ne (Ne.symm hij)]
    · have h2 : l[i]? = none := List.getElem?_eq_none (by omega)
      have h1 : (l.set j a)[i]? = none :=
        List.getElem?_eq_none (by simp only [List.length_set]; omega)
      simp [hlen, List.getD_eq_getElem?_getD, h1, h2]

theorem foldl_set_length {α : Type} (a : α) :
    ∀ (idxs : List ℕ) (l : List α),
      (idxs.foldl (fun acc j => acc.set j a) l).length = l.length := by
  intro idxs
  induction idxs with
  | nil => intro l; rfl
  | cons j rest ih => intro l; simp only [List.foldl_cons]; rw [ih, List.length_set]

theorem range_filter_getD_map {α : Type} (p : α → Bool) (d : α) :
    ∀ l : List α,
      ((List.range l.length).filter (fun i => p (l.getD i d))).map (fun i => l.getD i d)
        = l.filter p := by
  intro l
  induction l with
  | nil => simp
  | cons x xs ih =>
    have hmapped :
        List.map (fun i => (x :: xs).getD i d)
          (List.filter (fun i => p ((x :: xs).getD i d))
            (List.map Nat.succ (List.range xs.length)))
          = List.filter p xs := by
      rw [List.filter_map,
        show ((fun i => p ((x :: xs).getD i d)) ∘ Nat.succ) = fun i => p (xs.getD i d) by
          funext i; simp,
        ← ih, List.map_map]
      apply List.map_congr_left
      intro i hi
      simp
    simp only [List.length_cons, List.range_succ_eq_map, List.filter_cons,
      List.getD_cons_zero]
    by_cases hx : p x
    · simp only [hx, if_true, List.map_cons, List.getD_cons_zero, hmapped]
    · simp only [hx, Bool.false_eq_true, if_false, hmapped]

theorem range_filter_length {α : Type} (p : α → Bool) (d : α) (l : List α) :
    ((List.range l.length).filter (fun i => p (l.getD i d))).length = (l.filter p).length := by
  rw [← range_filter_getD_map p d l, List.length_map]

theorem length_filter_and_split {α : Type} (p q : α → Bool) :
    ∀ l : List α,
      (l.filter p).length
        = (l.filter (fun x => p x && q x)).length
          + (l.filter (fun x => p x && !q x)).length := by
  intro l
  induction l with
  | nil => simp
  | cons x xs ih =>
    rw [List.filter_cons, List.filter_cons, List.filter_cons]
    cases hp : p x <;> cases hq : q x <;> simp [hp, hq, ih] <;> omega

theorem filter_range_take (p : ℕ → Bool) (k : ℕ) :
    ∀ n, ((List.range n).filter p).take k
      = (List.range n).filter (fun i => p i && decide (((List.range i).filter p).length < k)) := by
  intro n
  induction n with
  | zero => simp
  | succ n ih =>
    rw [List.range_succ, List.filter_append, List.filter_append,
      List.take_append_eq_append_take, ih]
    congr 1
    rw [List.filter_singleton, List.filter_singleton]
    by_cases hp : p n
    · by_cases hk : ((List.range n).filter p).length < k
      · have hsub : k - ((List.range n).filter p).length
            = (k - ((List.range n).filter p).length - 1) + 1 := by omega
        rw [hsub]
        simp [hp, hk]
      · have hsub : k - ((List.range n).filter p).length = 0 := by omega
        rw [hsub]
        simp [hp, hk]
    · simp [hp]

theorem mem_filter_range_take (p : ℕ → Bool) (k n i : ℕ) :
    i ∈ ((List.range n).filter p).take k
      ↔ i < n ∧ p i ∧ ((List.range i).filter p).length < k := by
  rw [filter_range_take]
  simp [List.mem_filter, and_assoc]

theorem rank_lt_filter_length (p : ℕ → Bool) (n i : ℕ) (hi : i < n) (hp : p i) :
    ((List.range i).filter p).length < ((List.range n).filter p).length := by
  have hsplit : List.range n = List.range i ++ (List.range (n - i)).map (fun x => i + x) := by
    rw [← List.range_add]
    congr 1
    omega
  rw [hsplit, List.filter_append, List.length_append]
  have hmem0 : i ∈ (List.range (n - i)).map (fun x => i + x) := by
    simp only [List.mem_map, List.mem_range]
    exact ⟨0, by omega, by omega⟩
  have hmem : i ∈ ((List.range (n - i)).map (fun x => i + x)).filter p :=
    List.mem_filter.mpr ⟨hmem0, hp⟩
  have hpos : 0 < (((List.range (n - i)).map (fun x => i + x)).filter p).length :=
    List.length_pos.mpr (List.ne_nil_of_mem hmem)
  omega

/-! ## Characterization of `from_guess_and_answer` -/

theorem char_hints_init_length (g a : List ℕ) :
    (char_hints_init g a).length = min g.length a.length := by
  simp [char_hints_init]

theorem char_hints_init_getD (g a : List ℕ) (i : ℕ) (hg : i < g.length) (ha : i < a.length)
    (d : CharHint) :
    (char_hints_init g a).getD i d
      = if a.getD i 0 = g.getD i 0 then CharHint.Correct else CharHint.Nowhere := by
  rw [List.getD_eq_getElem?_getD, char_hints_init, List.getElem?_zipWith,
    List.getElem?_eq_getElem hg, List.getElem?_eq_getElem ha,
    List.getD_eq_getElem a 0 ha, List.getD_eq_getElem g 0 hg]
  rfl

theorem mark_elsewhere_getD (hs : List CharHint) (inds : List ℕ) (i : ℕ) (d : CharHint) :
    (mark_elsewhere hs inds).getD i d
      = if i ∈ inds ∧ i < hs.length then CharHint.Elsewhere else hs.getD i d :=
  foldl_set_getD CharHint.Elsewhere inds hs i d

theorem mark_elsewhere_length (hs : List CharHint) (inds : List ℕ) :
    (mark_elsewhere hs inds).length = hs.length :=
  foldl_set_length CharHint.Elsewhere inds hs

theorem fga_fold_length (g a : List ℕ) :
    ∀ (cs : List ℕ) (hs : List CharHint),
      (cs.foldl (fun hs c => mark_elsewhere hs (marked_inds g a c)) hs).length
        = hs.length := by
  intro cs
  induction cs with
  | nil => intro hs; rfl
  | cons c rest ih => intro hs; simp only [List.foldl_cons]; rw [ih, mark_elsewhere_length]

theorem fga_fold_getD (g a : List ℕ) :
    ∀ (cs : List ℕ) (hs : List CharHint) (i : ℕ) (d : CharHint),
      (cs.foldl (fun hs c => mark_elsewhere hs (marked_inds g a c)) hs).getD i d
        = if (∃ c ∈ cs, i ∈ marked_inds g a c) ∧ i < hs.length then CharHint.Elsewhere
          else hs.getD i d := by
  intro cs
  induction cs with
  | nil => intro hs i d; simp
  | cons c rest ih =>
    intro hs i d
    simp only [List.foldl_cons]
    rw [ih, mark_elsewhere_length, mark_elsewhere_getD]
    by_cases hlen : i < hs.length
    · simp only [hlen, and_true]
      by_cases hrest : ∃ c' ∈ rest, i ∈ marked_inds g a c'
      · rw [if_pos hrest, if_pos]
        rcases hrest with ⟨c', hc', hm⟩
        exact ⟨c', List.mem_cons_of_mem c hc', hm⟩
      · rw [if_neg hrest]
        by_cases hc : i ∈ marked_inds g a c
        · rw [if_pos hc, if_pos ⟨c, List.mem_cons_self c rest, hc⟩]
        · rw [if_neg hc, if_neg]
          rintro ⟨c', hc', hm⟩
          rcases List.mem_cons.mp hc' with rfl | hc'
          · exact hc hm
          · exact hrest ⟨c', hc', hm⟩
    · simp [hlen]

theorem from_guess_and_answer_eq_fold (g a : List ℕ) :
    from_guess_and_answer g a
      = a.dedup.foldl (fun hs c => mark_elsewhere hs (marked_inds g a c))
          (char_hints_init g a) := rfl

theorem from_guess_and_answer_length (g a : List ℕ) :
    (from_guess_and_answer g a).length = min g.length a.length := by
  rw [from_guess_and_answer_eq_fold, fga_fold_length, char_hints_init_length]

theorem mem_marked_inds (g a : List ℕ) (c i : ℕ) :
    i ∈ marked_inds g a c
      ↔ i < g.length ∧ (g.getD i 0 = c ∧ ¬(a.getD i 0 = g.getD i 0))
          ∧ ((List.range i).filter
              (fun j => g.getD j 0 = c ∧ ¬(a.getD j 0 = g.getD j 0))).length
            < missed_answer_char_count g a c := by
  have htake : marked_inds g a c
      = (incorrect_guess_char_inds g a c).take (missed_answer_char_count g a c) := by
    unfold marked_inds
    rw [← List.take_take, List.take_length]
  rw [htake]
  unfold incorrect_guess_char_inds
  rw [mem_filter_range_take]
  simp

theorem from_guess_and_answer_getD (g a : List ℕ) (hlen : a.length = g.length)
    (i : ℕ) (hi : i < g.length) (d : CharHint) :
    (from_guess_and_answer g a).getD i d
      = if a.getD i 0 = g.getD i 0 then CharHint.Correct
        else if hint_rank g a i < missed_answer_char_count g a (g.getD i 0) then
          CharHint.Elsewhere
        else CharHint.Nowhere := by
  rw [from_guess_and_answer_eq_fold, fga_fold_getD, char_hints_init_length]
  have hilen : i < min g.length a.length := by omega
  by_cases hcor : a.getD i 0 = g.getD i 0
  · have hno : ¬((∃ c ∈ a.dedup, i ∈ marked_inds g a c) ∧ i < min g.length a.length) := by
      rintro ⟨⟨c, _, hm⟩, _⟩
      exact ((mem_marked_inds g a c i).mp hm).2.1.2 hcor
    rw [if_neg hno, char_hints_init_getD g a i hi (by omega), if_pos hcor, if_pos hcor]
  · by_cases hrank : hint_rank g a i < missed_answer_char_count g a (g.getD i 0)
    · have hmem : g.getD i 0 ∈ a.dedup := by
        have hpos : 0 < missed_answer_char_count g a (g.getD i 0) := by omega
        unfold missed_answer_char_count at hpos
        rcases List.exists_mem_of_length_pos hpos with ⟨j, hjmem⟩
        rw [List.mem_filter, List.mem_range] at hjmem
        have hja : j < a.length := by omega
        have : a.getD j 0 = g.getD i 0 := by
          have := hjmem.2
          simp only [decide_eq_true_eq] at this
          exact this.1
        rw [List.mem_dedup, ← this, List.getD_eq_getElem a 0 hja]
        exact List.getElem_mem hja
      have hex : (∃ c ∈ a.dedup, i ∈ marked_inds g a c) ∧ i < min g.length a.length := by
        refine ⟨⟨g.getD i 0, hmem, ?_⟩, hilen⟩
        rw [mem_marked_inds]
        exact ⟨hi, ⟨rfl, hcor⟩, hrank⟩
      rw [if_pos hex, if_neg hcor, if_pos hrank]
    · have hno : ¬((∃ c ∈ a.dedup, i ∈ marked_inds g a c) ∧ i < min g.length a.length) := by
        rintro ⟨⟨c, _, hm⟩, _⟩
        rw [mem_marked_inds] at hm
        rcases hm with ⟨_, ⟨hgc, _⟩, hm⟩
        rw [← hgc] at hm
        exact hrank hm
      rw [if_neg hno, char_hints_init_getD g a i hi (by omega), if_neg hcor, if_neg hcor,
        if_neg hrank]

theorem from_guess_and_answer_correct_iff (g a : List ℕ) (hlen : a.length = g.length)
    (i : ℕ) (hi : i < g.length) :
    (from_guess_and_answer g a).getD i CharHint.Correct = CharHint.Correct
      ↔ a.getD i 0 = g.getD i 0 := by
  rw [from_guess_and_answer_getD g a hlen i hi]
  split_ifs with h1 h2 <;> simp_all

/-- **C7.** For every guess `g` and answer `a` of the same word length,
`WordHint::from_guess_and_answer(g, a).all_correct()` is true if and only if
`g == a`. -/
theorem hint_all_correct_iff_guess_eq_answer (g a : List ℕ) (hlen : a.length = g.length) :
    all_correct (from_guess_and_answer g a) = true ↔ g = a := by
  rw [all_correct, decide_eq_true_eq]
  have hflen : (from_guess_and_answer g a).length = g.length := by
    rw [from_guess_and_answer_length]; omega
  constructor
  · intro hrep
    apply List.ext_getElem (by omega)
    intro i h1 h2
    have hi : i < g.length := h1
    have hc : (from_guess_and_answer g a).getD i CharHint.Correct = CharHint.Correct := by
      rw [hrep, List.getD_eq_getElem?_getD, List.getElem?_replicate]
      split <;> rfl
    have hia := (from_guess_and_answer_correct_iff g a hlen i hi).mp hc
    rw [List.getD_eq_getElem a 0 (by omega), List.getD_eq_getElem g 0 hi] at hia
    exact hia.symm
  · rintro rfl
    apply List.ext_getElem (by simp)
    intro i h1 h2
    have hi : i < g.length := by omega
    rw [List.getElem_replicate, ← List.getD_eq_getElem _ CharHint.Correct h1]
    exact (from_guess_and_answer_correct_iff g g rfl i hi).mpr rfl

/-- Witness for C7: at `g = a = [0, 1]` the hint is all-correct and the words
are equal; the hypothesis holds at this concrete input. -/
theorem hint_all_correct_iff_guess_eq_answer_witness :
    all_correct (from_guess_and_answer [0, 1] [0, 1]) = true :=
  (hint_all_correct_iff_guess_eq_answer [0, 1] [0, 1] rfl).mpr rfl

/-! ## C6: `clue_possible` -/

theorem realizable_no_nowhere_before_elsewhere (g a : List ℕ) (hlen : a.length = g.length)
    (i j : ℕ) (hj : j < i) (hi : i < g.length)
    (hsame : g.getD j 0 = g.getD i 0)
    (hnow : (from_guess_and_answer g a).getD j CharHint.Correct = CharHint.Nowhere)
    (hels : (from_guess_and_answer g a).getD i CharHint.Correct = CharHint.Elsewhere) :
    False := by
  have hjlt : j < g.length := by omega
  rw [from_guess_and_answer_getD g a hlen j hjlt] at hnow
  rw [from_guess_and_answer_getD g a hlen i hi] at hels
  by_cases hcj : a.getD j 0 = g.getD j 0
  · rw [if_pos hcj] at hnow
    exact CharHint.noConfusion hnow
  · by_cases hci : a.getD i 0 = g.getD i 0
    · rw [if_pos hci] at hels
      exact CharHint.noConfusion hels
    · rw [if_neg hcj] at hnow
      rw [if_neg hci] at hels
      by_cases hrj : hint_rank g a j < missed_answer_char_count g a (g.getD j 0)
      · rw [if_pos hrj] at hnow
        exact CharHint.noConfusion hnow
      · by_cases hri : hint_rank g a i < missed_answer_char_count g a (g.getD i 0)
        · -- rank j ≥ missed but rank j < rank i < missed: contradiction
          unfold hint_rank at hrj hri
          simp only [hsame] at hrj
          have hlt := rank_lt_filter_length
            (fun k => decide (g.getD k 0 = g.getD i 0 ∧ ¬(a.getD k 0 = g.getD k 0)))
            i j hj (by simp only [decide_eq_true_eq]; exact ⟨hsame, hcj⟩)
          omega
        · rw [if_neg hri] at hels
          exact CharHint.noConfusion hels

theorem clue_possible_go_true (g : List ℕ) (h : List CharHint)
    (good : ∀ i, i < g.length → h.getD i CharHint.Correct = CharHint.Elsewhere →
      ∀ j, j < i →
        ¬(g.getD j 0 = g.getD i 0 ∧ h.getD j CharHint.Correct = CharHint.Nowhere)) :
    ∀ (len s : ℕ), s + len ≤ g.length →
      ∀ nw : List ℕ,
        (∀ c ∈ nw, ∃ j, j < s ∧ g.getD j 0 = c
          ∧ h.getD j CharHint.Correct = CharHint.Nowhere) →
        clue_possible_go g h nw (List.range' s len) = true := by
  intro len
  induction len with
  | zero => intro s _ nw _; rfl
  | succ len ih =>
    intro s hs nw hnw
    rw [List.range'_succ]
    have hslt : s < g.length := by omega
    cases hh : h.getD s CharHint.Correct with
    | Correct =>
      simp only [clue_possible_go, hh]
      exact ih (s + 1) (by omega) nw (fun c hc => by
        rcases hnw c hc with ⟨j, hj1, hj2, hj3⟩
        exact ⟨j, by omega, hj2, hj3⟩)
    | Nowhere =>
      simp only [clue_possible_go, hh]
      apply ih (s + 1) (by omega)
      intro c hc
      rcases List.mem_cons.mp hc with rfl | hc
      · exact ⟨s, by omega, rfl, hh⟩
      · rcases hnw c hc with ⟨j, hj1, hj2, hj3⟩
        exact ⟨j, by omega, hj2, hj3⟩
    | Elsewhere =>
      have hnotin : (nw.contains (g.getD s 0)) = false := by
        by_contra hcon
        have hmem : g.getD s 0 ∈ nw := by
          rcases Bool.eq_false_or_eq_true (nw.contains (g.getD s 0)) with ht | hf
          · exact List.mem_of_elem_eq_true ht
          · exact absurd hf hcon
        rcases hnw _ hmem with ⟨j, hj1, hj2, hj3⟩
        exact good s hslt hh j hj1 ⟨hj2, hj3⟩
      simp only [clue_possible_go, hh, hnotin, Bool.false_eq_true, if_false]
      exact ih (s + 1) (by omega) nw (fun c hc => by
        rcases hnw c hc with ⟨j, hj1, hj2, hj3⟩
        exact ⟨j, by omega, hj2, hj3⟩)

theorem clue_possible_of_realizable (g a : List ℕ) (hlen : a.length = g.length) :
    clue_possible g (from_guess_and_answer g a) = true := by
  rw [clue_possible, show List.range g.length = List.range' 0 g.length from
    List.range_eq_range' g.length]
  apply clue_possible_go_true
  · intro i hi hels j hj hbad
    exact realizable_no_nowhere_before_elsewhere g a hlen i j hj hi hbad.1 hbad.2 hels
  · omega
  · intro c hc
    exact absurd hc (List.not_mem_nil c)

/-- **C6 (amended).** The filter is sound but not complete: whenever
`clue_possible(g, h)` returns `false`, no word `w` (of the guess's length)
satisfies `WordHint::from_guess_and_answer(g, w) = h`; the converse direction
of the claim fails (see the counterexample). -/
theorem clue_possible_false_implies_unreachable (g : List ℕ) (h : List CharHint)
    (w : List ℕ) (hlen : w.length = g.length)
    (hfalse : clue_possible g h = false) :
    from_guess_and_answer g w ≠ h := by
  intro heq
  rw [← heq] at hfalse
  rw [clue_possible_of_realizable g w hlen] at hfalse
  exact Bool.noConfusion hfalse

/-- Witness for the amended C6: `clue_possible([A,A], [X,~])` is `false`
(a `Nowhere` before an `Elsewhere` for the same char), so the theorem applies
and shows no length-2 word realizes that hint; all hypotheses are discharged
at this concrete input. -/
theorem clue_possible_false_implies_unreachable_witness :
    from_guess_and_answer [0, 0] [1, 1] ≠ [CharHint.Nowhere, CharHint.Elsewhere] :=
  clue_possible_false_implies_unreachable [0, 0]
    [CharHint.Nowhere, CharHint.Elsewhere] [1, 1] rfl (by decide)

/-- **C6 (counterexample).** The claim's "only if" direction fails: for the
guess `[A, A]` and the hint `[~, X]` (an `Elsewhere` then a `Nowhere` for the
same char), `clue_possible` returns `true`, yet no word realizes the hint —
the second conjunct checks every length-2 word over the alphabet `{0, 1, 2}`
(`(List.range 3).flatMap …` enumerates all 9 of them), and the argument is
alphabet-independent: a realizing word would need exactly one `A` placed at
neither position of a 2-letter word. -/
theorem clue_possible_incomplete_counterexample :
    clue_possible [0, 0] [CharHint.Elsewhere, CharHint.Nowhere] = true
    ∧ ((List.range 3).flatMap (fun x => (List.range 3).map (fun y => ([x, y] : List ℕ)))).all
        (fun w => decide (from_guess_and_answer [0, 0] w
          ≠ [CharHint.Elsewhere, CharHint.Nowhere])) = true := by
  constructor
  · decide
  · decide

/-! ## Content of the columns built by `SearchableWords::build` -/

theorem one_hot_fold_project (v : ℕ) :
    ∀ (L : List (ℕ × ℕ)) (cols : List Column), v < cols.length →
      (L.foldl (fun cols iv => cols.set iv.2 ((cols.getD iv.2 []).set iv.1 true)) cols).getD v []
        = L.foldl (fun col iv => if iv.2 = v then col.set iv.1 true else col)
            (cols.getD v []) := by
  intro L
  induction L with
  | nil => intro cols _; rfl
  | cons p rest ih =>
    intro cols hv
    rcases p with ⟨i, x⟩
    simp only [List.foldl_cons]
    by_cases hxlen : x < cols.length
    · rw [ih _ (by simp only [List.length_set]; omega)]
      by_cases hxv : x = v
      · subst hxv
        rw [if_pos rfl]
        congr 1
        rw [List.getD_eq_getElem?_getD, List.getElem?_set_self hxlen]
        rfl
      · rw [if_neg hxv]
        congr 1
        rw [List.getD_eq_getElem?_getD, List.getElem?_set_ne hxv, ← List.getD_eq_getElem?_getD]
    · rw [List.set_eq_of_length_le (by omega)]
      rw [ih _ hv]
      have hxv : ¬(x = v) := by omega
      rw [if_neg hxv]

theorem one_hot_fold_filter (v : ℕ) :
    ∀ (L : List (ℕ × ℕ)) (col : Column),
      L.foldl (fun col iv => if iv.2 = v then col.set iv.1 true else col) col
        = ((L.filter (fun p => p.2 = v)).map Prod.fst).foldl
            (fun acc j => acc.set j true) col := by
  intro L
  induction L with
  | nil => intro col; rfl
  | cons p rest ih =>
    intro col
    rcases p with ⟨i, x⟩
    rw [List.filter_cons]
    by_cases hxv : x = v
    · subst hxv
      rw [if_pos (by simp)]
      simp only [List.foldl_cons, if_pos rfl, List.map_cons, List.foldl_cons]
      exact ih _
    · rw [if_neg (by simp [hxv])]
      simp only [List.foldl_cons, if_neg hxv]
      exact ih _

theorem foldl_set_cols_length :
    ∀ (L : List (ℕ × ℕ)) (cols : List Column),
      (L.foldl (fun cols iv => cols.set iv.2 ((cols.getD iv.2 []).set iv.1 true)) cols).length
        = cols.length := by
  intro L
  induction L with
  | nil => intro cols; rfl
  | cons p rest ih => intro cols; simp only [List.foldl_cons]; rw [ih, List.length_set]

theorem one_hot_values_length (values : List ℕ) (m : ℕ) :
    (Column.one_hot_values values m).length = m := by
  unfold Column.one_hot_values
  rw [foldl_set_cols_length]
  simp

theorem one_hot_values_getD (values : List ℕ) (m v : ℕ) (hv : v < m) :
    (Column.one_hot_values values m).getD v []
      = values.map (fun x => decide (x = v)) := by
  have hstart : (List.replicate m (Column.from_false values.length)).getD v []
      = Column.from_false values.length := by
    rw [List.getD_eq_getElem?_getD, List.getElem?_replicate, if_pos hv]
    rfl
  have hfalse : ∀ j, (Column.from_false values.length).getD j false = false := by
    intro j
    rw [Column.from_false, List.getD_eq_getElem?_getD, List.getElem?_replicate]
    split <;> rfl
  unfold Column.one_hot_values
  rw [one_hot_fold_project v _ _ (by rw [List.length_replicate]; exact hv),
    one_hot_fold_filter, hstart]
  apply List.ext_getElem
  · rw [foldl_set_length]
    simp [Column.from_false]
  · intro i h1 h2
    have hilen : i < values.length := by
      rw [foldl_set_length] at h1
      simpa [Column.from_false] using h1
    have hmemiff : (i ∈ (values.enum.filter (fun p => p.2 = v)).map Prod.fst)
        ↔ values[i] = v := by
      constructor
      · intro hm
        rcases List.mem_map.mp hm with ⟨⟨i', x⟩, hpmem, hfst⟩
        rcases List.mem_filter.mp hpmem with ⟨hpen, hx⟩
        have hen := List.mem_enum hpen
        simp only at hfst
        subst hfst
        simp only [decide_eq_true_eq] at hx
        rw [← hen.2]
        exact hx
      · intro hval
        refine List.mem_map.mpr ⟨(i, v), List.mem_filter.mpr ⟨?_, by simp⟩, rfl⟩
        have hsome : values.enum[i]? = some (i, v) := by
          rw [List.getElem?_enum, List.getElem?_eq_getElem hilen, hval]
          rfl
        exact List.getElem?_mem hsome
    rw [← List.getD_eq_getElem _ false h1, ← List.getD_eq_getElem _ false h2,
      foldl_set_getD]
    have hrhs : (values.map (fun x => decide (x = v))).getD i false
        = decide (values[i] = v) := by
      rw [List.getD_eq_getElem _ false (by simpa using hilen), List.getElem_map]
    rw [hrhs]
    by_cases hval : values[i] = v
    · rw [if_pos ⟨hmemiff.mpr hval,
        by rw [Column.from_false, List.length_replicate]; exact hilen⟩]
      simp [hval]
    · rw [if_neg (fun hc => hval (hmemiff.mp hc.1)), hfalse]
      simp [hval]

theorem one_hot_values_mem_length (values : List ℕ) (m : ℕ) (col : Column)
    (hcol : col ∈ Column.one_hot_values values m) : col.length = values.length := by
  rcases List.mem_iff_getElem.mp hcol with ⟨v, hv, hcolv⟩
  rw [one_hot_values_length] at hv
  rw [← hcolv, ← List.getD_eq_getElem _ [] (by rw [one_hot_values_length]; exact hv),
    one_hot_values_getD values m v hv]
  simp

theorem char_block_length (W : ℕ) (words : List (List ℕ)) (chr : ℕ) :
    (char_block W words chr).length = W + (W + 1) + (W - 1) := by
  unfold char_block
  rw [List.length_append, List.length_append, List.length_map, List.length_range,
    one_hot_values_length, List.length_map, List.length_range']

theorem char_block_mem_length (W : ℕ) (words : List (List ℕ)) (chr : ℕ) :
    ∀ col ∈ char_block W words chr, col.length = words.length := by
  intro col hcol
  unfold char_block at hcol
  rcases List.mem_append.mp hcol with hcol | hcol
  · rcases List.mem_append.mp hcol with hcol | hcol
    · rcases List.mem_map.mp hcol with ⟨ind, _, rfl⟩
      simp [Column.from_bools]
    · have := one_hot_values_mem_length _ _ _ hcol
      simpa using this
  · rcases List.mem_map.mp hcol with ⟨t, _, rfl⟩
    simp [Column.from_bools]

theorem char_block_get?_match (W : ℕ) (words : List (List ℕ)) (chr ind : ℕ)
    (hind : ind < W) :
    (char_block W words chr).get? ind
      = some (words.map (fun w => decide (w.getD ind 0 = chr))) := by
  unfold char_block
  rw [List.get?_eq_getElem?, List.append_assoc,
    List.getElem?_append_left (by rw [List.length_map, List.length_range]; exact hind),
    List.getElem?_map, List.getElem?_range hind]
  rfl

theorem char_block_get?_exact (W : ℕ) (words : List (List ℕ)) (chr k : ℕ)
    (hk : k ≤ W) :
    (char_block W words chr).get? (W + k)
      = some (words.map (fun w => decide (count_chr w chr = k))) := by
  unfold char_block
  rw [List.get?_eq_getElem?, List.append_assoc,
    List.getElem?_append_right (by rw [List.length_map, List.length_range]; omega),
    List.length_map, List.length_range,
    List.getElem?_append_left (by rw [one_hot_values_length]; omega)]
  have hsub : W + k - W = k := by omega
  rw [hsub]
  have hk1 : k < W + 1 := by omega
  rw [List.getElem?_eq_getElem (by rw [one_hot_values_length]; exact hk1),
    ← List.getD_eq_getElem _ [] (by rw [one_hot_values_length]; exact hk1),
    one_hot_values_getD _ _ k hk1, List.map_map]
  rfl

theorem char_block_get?_atleast (W : ℕ) (words : List (List ℕ)) (chr t : ℕ)
    (ht1 : 1 ≤ t) (ht : t < W) :
    (char_block W words chr).get? (W * 2 + 1 + t - 1)
      = some (words.map (fun w => decide (t ≤ count_chr w chr))) := by
  unfold char_block
  have hidx : W * 2 + 1 + t - 1 = W + (W + 1) + (t - 1) := by omega
  rw [List.get?_eq_getElem?, hidx, List.append_assoc,
    List.getElem?_append_right (by rw [List.length_map, List.length_range]; omega),
    List.length_map, List.length_range]
  have hsub : W + (W + 1) + (t - 1) - W = (W + 1) + (t - 1) := by omega
  rw [hsub,
    List.getElem?_append_right (by rw [one_hot_values_length]; omega),
    one_hot_values_length]
  have hsub2 : W + 1 + (t - 1) - (W + 1) = t - 1 := by omega
  rw [hsub2, List.getElem?_map, List.getElem?_range' 1 1 (by omega)]
  have hval : 1 + 1 * (t - 1) = t := by omega
  rw [hval]
  rfl

theorem flatMap_get?_const {α : Type} (f : ℕ → List α) (B : ℕ) :
    ∀ (xs : List ℕ), (∀ x ∈ xs, (f x).length = B) → ∀ c j, c < xs.length → j < B →
      (xs.flatMap f).get? (B * c + j) = (f (xs.getD c 0)).get? j := by
  intro xs
  induction xs with
  | nil => intro _ c j hc _; simp at hc
  | cons x rest ih =>
    intro hlen c j hc hj
    rw [List.flatMap_cons]
    cases c with
    | zero =>
      simp only [Nat.mul_zero, Nat.zero_add, List.getD_cons_zero]
      rw [List.get?_eq_getElem?,
        List.getElem?_append_left (by rw [hlen x (List.mem_cons_self x rest)]; omega),
        ← List.get?_eq_getElem?]
    | succ c' =>
      have hxlen : (f x).length = B := hlen x (List.mem_cons_self x rest)
      have hmul : B * (c' + 1) = B * c' + B := by ring
      have hge : B ≤ B * (c' + 1) + j := by omega
      rw [List.get?_eq_getElem?,
        List.getElem?_append_right (by rw [hxlen]; exact hge),
        hxlen]
      have hsub : B * (c' + 1) + j - B = B * c' + j := by omega
      rw [hsub, ← List.get?_eq_getElem?, List.getD_cons_succ]
      exact ih (fun y hy => hlen y (List.mem_cons_of_mem x hy)) c' j (by simpa using hc) hj

theorem build_columns_get? (W A : ℕ) (words : List (List ℕ)) (c j : ℕ)
    (hc : c < A) (hj : j < W + (W + 1) + (W - 1)) :
    (SearchableWords.build W A words).columns.get? ((W + (W + 1) + (W - 1)) * c + j)
      = (char_block W words c).get? j := by
  unfold SearchableWords.build
  rw [flatMap_get?_const (char_block W words) (W + (W + 1) + (W - 1))
    (List.range A) (fun x _ => char_block_length W words x) c j
    (by rw [List.length_range]; exact hc) hj]
  congr 1
  rw [List.getD_eq_getElem _ 0 (by rw [List.length_range]; exact hc)]
  simp

theorem build_columns_length (W A : ℕ) (words : List (List ℕ)) :
    (SearchableWords.build W A words).columns.length = A * (W + (W + 1) + (W - 1)) := by
  unfold SearchableWords.build
  rw [List.length_flatMap]
  have hrep : List.map (List.length ∘ char_block W words) (List.range A)
      = List.replicate A (W + (W + 1) + (W - 1)) := by
    rw [List.eq_replicate_iff]
    constructor
    · rw [List.length_map, List.length_range]
    · intro b hb
      rcases List.mem_map.mp hb with ⟨x, _, rfl⟩
      exact char_block_length W words x
  rw [hrep, List.sum_replicate, smul_eq_mul]

theorem build_cols_mem_length (W A : ℕ) (words : List (List ℕ)) :
    ∀ col ∈ (SearchableWords.build W A words).columns, col.length = words.length := by
  intro col hcol
  unfold SearchableWords.build at hcol
  rcases List.mem_flatMap.mp hcol with ⟨c, _, hcol⟩
  exact char_block_mem_length W words c col hcol

/-! ## What `eval_query` computes on a built table -/

theorem count_chr_le_length (w : List ℕ) (c : ℕ) : count_chr w c ≤ w.length :=
  List.length_filter_le _ w

theorem bitand_map {α : Type} (ws : List α) (f g : α → Bool) :
    Column.bitand (ws.map f) (ws.map g) = some (ws.map (fun w => f w && g w)) := by
  unfold Column.bitand
  rw [if_pos (by simp)]
  congr 1
  rw [List.zipWith_map, List.zipWith_same]

theorem bitor_map {α : Type} (ws : List α) (f g : α → Bool) :
    Column.bitor (ws.map f) (ws.map g) = some (ws.map (fun w => f w || g w)) := by
  unfold Column.bitor
  rw [if_pos (by simp)]
  congr 1
  rw [List.zipWith_map, List.zipWith_same]

theorem build_get?_match (W A : ℕ) (ws : List (List ℕ)) (c ind : ℕ)
    (hc : c < A) (hind : ind < W) :
    (SearchableWords.build W A ws).columns.get? (W * 3 * c + ind)
      = some (ws.map (fun w => decide (w.getD ind 0 = c))) := by
  have hB : W + (W + 1) + (W - 1) = W * 3 := by omega
  have hlook := build_columns_get? W A ws c ind hc (by omega)
  rw [hB] at hlook
  rw [hlook, char_block_get?_match W ws c ind hind]

theorem build_get?_exact (W A : ℕ) (ws : List (List ℕ)) (c k : ℕ)
    (hW : 1 ≤ W) (hc : c < A) (hk : k ≤ W) :
    (SearchableWords.build W A ws).columns.get? (W * 3 * c + W + k)
      = some (ws.map (fun w => decide (count_chr w c = k))) := by
  have hB : W + (W + 1) + (W - 1) = W * 3 := by omega
  have hlook := build_columns_get? W A ws c (W + k) hc (by omega)
  rw [hB] at hlook
  rw [show W * 3 * c + W + k = W * 3 * c + (W + k) from by omega, hlook,
    char_block_get?_exact W ws c k hk]

theorem build_get?_atleast (W A : ℕ) (ws : List (List ℕ)) (c t : ℕ)
    (hc : c < A) (ht1 : 1 ≤ t) (ht : t < W) :
    (SearchableWords.build W A ws).columns.get? (W * 3 * c + W * 2 + 1 + t - 1)
      = some (ws.map (fun w => decide (t ≤ count_chr w c))) := by
  have hB : W + (W + 1) + (W - 1) = W * 3 := by omega
  have hlook := build_columns_get? W A ws c (W * 2 + 1 + t - 1) hc (by omega)
  rw [hB] at hlook
  rw [show W * 3 * c + W * 2 + 1 + t - 1 = W * 3 * c + (W * 2 + 1 + t - 1) from by omega,
    hlook, char_block_get?_atleast W ws c t ht1 ht]

theorem eval_match_content (W A : ℕ) (ws : List (List ℕ)) (ind chr : ℕ)
    (hind : ind < W) (hchr : chr < A) :
    eval_query (SearchableWords.build W A ws) (Query.Match ind chr)
      = some (ws.map (fun w => query_holds (Query.Match ind chr) w)) := by
  show (SearchableWords.build W A ws).columns.get?
    ((SearchableWords.build W A ws).word_size * 3 * chr + ind) = _
  have hws : (SearchableWords.build W A ws).word_size = W := rfl
  rw [hws, build_get?_match W A ws chr ind hchr hind]
  rfl

theorem eval_count_exact_content (W A : ℕ) (ws : List (List ℕ)) (count chr : ℕ)
    (hW : 1 ≤ W) (hchr : chr < A) (hcount : count ≤ W) :
    eval_query (SearchableWords.build W A ws) (Query.CountExact count chr)
      = some (ws.map (fun w => query_holds (Query.CountExact count chr) w)) := by
  show count_exact_col (SearchableWords.build W A ws) count chr = _
  unfold count_exact_col
  have hws : (SearchableWords.build W A ws).word_size = W := rfl
  rw [hws, build_get?_exact W A ws chr count hW hchr hcount]
  rfl

theorem eval_count_at_least_content (W A : ℕ) (ws : List (List ℕ)) (count chr : ℕ)
    (hW : 1 ≤ W) (hchr : chr < A) (hcount : count ≤ W)
    (hlen : ∀ w ∈ ws, w.length = W) :
    eval_query (SearchableWords.build W A ws) (Query.CountAtLeast count chr)
      = some (ws.map (fun w => query_holds (Query.CountAtLeast count chr) w)) := by
  have hws : (SearchableWords.build W A ws).word_size = W := rfl
  by_cases h0 : count = 0
  · subst h0
    show (if (0 : ℕ) = 0 then some (Column.from_true (SearchableWords.build W A ws).words.length)
      else _) = _
    rw [if_pos rfl]
    have hwords : (SearchableWords.build W A ws).words = ws := rfl
    rw [hwords]
    congr 1
    rw [Column.from_true, ← List.map_const' ws true]
    apply List.map_congr_left
    intro w _
    show (true : Bool) = decide ((0 : ℕ) ≤ count_chr w chr)
    simp
  · by_cases hW' : count = W
    · show (if count = 0 then _
        else if count = (SearchableWords.build W A ws).word_size then
          count_exact_col (SearchableWords.build W A ws) count chr
        else _) = _
      rw [if_neg h0, hws, if_pos hW']
      unfold count_exact_col
      rw [hws, build_get?_exact W A ws chr count hW hchr hcount]
      congr 1
      apply List.map_congr_left
      intro w hw
      have hle : count_chr w chr ≤ W := by
        rw [← hlen w hw]
        exact count_chr_le_length w chr
      subst hW'
      show decide (count_chr w chr = count) = query_holds (Query.CountAtLeast count chr) w
      show decide (count_chr w chr = count) = decide (count ≤ count_chr w chr)
      rcases Nat.lt_or_ge (count_chr w chr) count with hlt | hge
      · simp [Nat.ne_of_lt hlt, Nat.not_le.mpr hlt]
      · have : count_chr w chr = count := by omega
        simp [this]
    · show (if count = 0 then _
        else if count = (SearchableWords.build W A ws).word_size then _
        else (SearchableWords.build W A ws).columns.get?
          ((SearchableWords.build W A ws).word_size * 3 * chr
            + (SearchableWords.build W A ws).word_size * 2 + 1 + count - 1)) = _
      rw [if_neg h0, hws, if_neg hW']
      rw [build_get?_atleast W A ws chr count hchr (by omega) (by omega)]
      rfl

theorem eval_not_content (sw : SearchableWords) (q : Query) (f : List ℕ → Bool)
    (h : eval_query sw q = some (sw.words.map f)) :
    eval_query sw (Query.Not q) = some (sw.words.map (fun w => !(f w))) := by
  show (eval_query sw q).map Column.negate = _
  rw [h]
  show some (Column.negate (sw.words.map f)) = _
  congr 1
  rw [Column.negate, List.map_map]
  rfl

theorem eval_fold_and_content (sw : SearchableWords) :
    ∀ (qs : List Query) (f : List ℕ → Bool),
      (∀ q ∈ qs, eval_query sw q = some (sw.words.map (fun w => query_holds q w))) →
      eval_query_fold_and sw qs (some (sw.words.map f))
        = some (sw.words.map (fun w => f w && query_holds_all qs w)) := by
  intro qs
  induction qs with
  | nil =>
    intro f _
    show some (sw.words.map f) = _
    congr 1
    apply List.map_congr_left
    intro w _
    show f w = (f w && query_holds_all [] w)
    show f w = (f w && true)
    simp
  | cons q rest ih =>
    intro f hall
    show eval_query_fold_and sw rest
      (match some (sw.words.map f), eval_query sw q with
       | some a, some b => Column.bitand a b
       | _, _ => none) = _
    rw [hall q (List.mem_cons_self q rest)]
    show eval_query_fold_and sw rest
      (Column.bitand (sw.words.map f) (sw.words.map (fun w => query_holds q w))) = _
    rw [bitand_map]
    rw [ih (fun w => f w && query_holds q w)
      (fun q' hq' => hall q' (List.mem_cons_of_mem q hq'))]
    congr 1
    apply List.map_congr_left
    intro w _
    show ((f w && query_holds q w) && query_holds_all rest w)
      = (f w && query_holds_all (q :: rest) w)
    show ((f w && query_holds q w) && query_holds_all rest w)
      = (f w && (query_holds q w && query_holds_all rest w))
    rw [Bool.and_assoc]

theorem eval_and_content (W A : ℕ) (ws : List (List ℕ)) (qs : List Query)
    (hall : ∀ q ∈ qs, eval_query (SearchableWords.build W A ws) q
      = some (ws.map (fun w => query_holds q w))) :
    eval_query (SearchableWords.build W A ws) (Query.And qs)
      = some (ws.map (fun w => query_holds_all qs w)) := by
  have hwords : (SearchableWords.build W A ws).words = ws := rfl
  show eval_query_fold_and (SearchableWords.build W A ws) qs
    (some (Column.from_true (SearchableWords.build W A ws).words.length)) = _
  have hstart : Column.from_true (SearchableWords.build W A ws).words.length
      = (SearchableWords.build W A ws).words.map (fun _ => true) := by
    rw [Column.from_true, List.map_const']
  rw [hstart, eval_fold_and_content _ qs (fun _ => true) (by rw [hwords]; exact hall)]
  rw [hwords]
  exact congrArg some (List.map_congr_left (fun w _ => by
    show ((true : Bool) && query_holds_all qs w) = query_holds_all qs w
    simp))

/-! ## C9 and C10 -/

/-- **C9 (counterexample).** At `WORD_SIZE = 2`, `ALPHABET_SIZE = 1` the table
built from the single word `AA` stores `6 = 1·(3·2)` columns (2 positional,
3 exact-count, 1 at-least-count), not `A·(2W+1) = 5` as the claim's total
asserts. -/
theorem build_total_columns_counterexample :
    (SearchableWords.build 2 1 [[0, 0]]).columns.length ≠ 1 * (2 * 2 + 1) := by
  decide

/-- **C9 (amended).** For `WORD_SIZE ≥ 1`, `SearchableWords::build` stores, for
each of the `A` alphabet characters, `W` positional match columns, then `W+1`
exact-count columns, then `W-1` at-least-count columns for thresholds
`1..W-1` (thresholds `0` and `W` answered without a stored column), so the
total number of stored columns is `A·3W` — not `A·(2W+1)` as claimed. -/
theorem build_column_layout (W A : ℕ) (ws : List (List ℕ)) (hW : 1 ≤ W) :
    (SearchableWords.build W A ws).columns.length = A * (3 * W)
    ∧ (∀ c, c < A → ∀ ind, ind < W →
        (SearchableWords.build W A ws).columns.get? (W * 3 * c + ind)
          = some (ws.map (fun w => decide (w.getD ind 0 = c))))
    ∧ (∀ c, c < A → ∀ k, k ≤ W →
        (SearchableWords.build W A ws).columns.get? (W * 3 * c + W + k)
          = some (ws.map (fun w => decide (count_chr w c = k))))
    ∧ (∀ c, c < A → ∀ t, 1 ≤ t → t < W →
        (SearchableWords.build W A ws).columns.get? (W * 3 * c + W * 2 + 1 + t - 1)
          = some (ws.map (fun w => decide (t ≤ count_chr w c)))) := by
  refine ⟨?_, ?_, ?_, ?_⟩
  · rw [build_columns_length]
    have : W + (W + 1) + (W - 1) = 3 * W := by omega
    rw [this]
  · intro c hc ind hind
    exact build_get?_match W A ws c ind hc hind
  · intro c hc k hk
    exact build_get?_exact W A ws c k hW hc hk
  · intro c hc t ht1 ht
    exact build_get?_atleast W A ws c t hc ht1 ht

/-- Witness for the amended C9, at `W = 2`, `A = 1`, a one-word list. -/
theorem build_column_layout_witness :
    (SearchableWords.build 2 1 [[0, 1]]).columns.length = 1 * (3 * 2) :=
  (build_column_layout 2 1 [[0, 1]] (by omega)).1

theorem build_get?_some (W A : ℕ) (ws : List (List ℕ)) (idx : ℕ)
    (hidx : idx < (SearchableWords.build W A ws).columns.length) :
    ∃ col, (SearchableWords.build W A ws).columns.get? idx = some col
      ∧ col.length = ws.length := by
  refine ⟨(SearchableWords.build W A ws).columns[idx], ?_, ?_⟩
  · rw [List.get?_eq_getElem?, List.getElem?_eq_getElem hidx]
  · exact build_cols_mem_length W A ws _ (List.getElem_mem hidx)

theorem eval_fold_and_some (sw : SearchableWords) (L : ℕ) :
    ∀ (qs : List Query) (acc : Column), acc.length = L →
      (∀ q ∈ qs, ∃ mask, eval_query sw q = some mask ∧ mask.length = L) →
      ∃ res, eval_query_fold_and sw qs (some acc) = some res ∧ res.length = L := by
  intro qs
  induction qs with
  | nil => intro acc hacc _; exact ⟨acc, rfl, hacc⟩
  | cons q rest ih =>
    intro acc hacc hall
    rcases hall q (List.mem_cons_self q rest) with ⟨mask, hmask, hmlen⟩
    show (∃ res, eval_query_fold_and sw rest
      (match some acc, eval_query sw q with
       | some a, some b => Column.bitand a b
       | _, _ => none) = some res ∧ res.length = L)
    rw [hmask]
    show (∃ res, eval_query_fold_and sw rest (Column.bitand acc mask) = some res
      ∧ res.length = L)
    rw [Column.bitand, if_pos (by omega)]
    exact ih (List.zipWith and acc mask) (by rw [List.length_zipWith]; omega)
      (fun q' hq' => hall q' (List.mem_cons_of_mem q hq'))

theorem eval_fold_or_some (sw : SearchableWords) (L : ℕ) :
    ∀ (qs : List Query) (acc : Column), acc.length = L →
      (∀ q ∈ qs, ∃ mask, eval_query sw q = some mask ∧ mask.length = L) →
      ∃ res, eval_query_fold_or sw qs (some acc) = some res ∧ res.length = L := by
  intro qs
  induction qs with
  | nil => intro acc hacc _; exact ⟨acc, rfl, hacc⟩
  | cons q rest ih =>
    intro acc hacc hall
    rcases hall q (List.mem_cons_self q rest) with ⟨mask, hmask, hmlen⟩
    show (∃ res, eval_query_fold_or sw rest
      (match some acc, eval_query sw q with
       | some a, some b => Column.bitor a b
       | _, _ => none) = some res ∧ res.length = L)
    rw [hmask]
    show (∃ res, eval_query_fold_or sw rest (Column.bitor acc mask) = some res
      ∧ res.length = L)
    rw [Column.bitor, if_pos (by omega)]
    exact ih (List.zipWith or acc mask) (by rw [List.length_zipWith]; omega)
      (fun q' hq' => hall q' (List.mem_cons_of_mem q hq'))

/-- **C10.** For a table built from any word list, evaluating any query whose
`Match` constraints have `ind < WORD_SIZE` and `chr < ALPHABET_SIZE` and whose
count constraints have `count ≤ WORD_SIZE` and `chr < ALPHABET_SIZE` never
indexes a column out of bounds and never combines columns of unequal length
(all the panic branches of `get`/`set`/`&=`/`|=` are unreachable, i.e. the
evaluation returns `some`), and the resulting row mask has exactly one entry
per word of the table. -/
theorem eval_query_in_bounds_safe (W A : ℕ) (ws : List (List ℕ)) (q : Query)
    (hq : query_in_bounds W A q) :
    ∃ mask, eval_query (SearchableWords.build W A ws) q = some mask
      ∧ mask.length = ws.length := by
  induction hq with
  | match_ok ind chr hind hchr =>
    refine ⟨ws.map (fun w => query_holds (Query.Match ind chr) w), ?_, by simp⟩
    exact eval_match_content W A ws ind chr hind hchr
  | count_exact_ok count chr hcount hchr =>
    show (∃ mask, (SearchableWords.build W A ws).columns.get? (W * 3 * chr + W + count)
      = some mask ∧ mask.length = ws.length)
    apply build_get?_some
    rw [build_columns_length]
    rcases Nat.eq_zero_or_pos W with hW0 | hWpos
    · subst hW0
      have hA : 1 ≤ A := by omega
      simpa using by omega
    · have h1 : W * 3 * chr + W + count < W * 3 * chr + W * 3 := by omega
      have h2 : W * 3 * chr + W * 3 = W * 3 * (chr + 1) := by ring
      have h3 : W * 3 * (chr + 1) ≤ W * 3 * A := by
        exact Nat.mul_le_mul_left _ (by omega)
      have h4 : A * (W + (W + 1) + (W - 1)) = W * 3 * A := by
        have : W + (W + 1) + (W - 1) = W * 3 := by omega
        rw [this]; ring
      omega
  | count_at_least_ok count chr hcount hchr =>
    show (∃ mask, (if count = 0
        then some (Column.from_true (SearchableWords.build W A ws).words.length)
        else if count = W
          then count_exact_col (SearchableWords.build W A ws) count chr
          else (SearchableWords.build W A ws).columns.get?
            (W * 3 * chr + W * 2 + 1 + count - 1))
        = some mask ∧ mask.length = ws.length)
    by_cases h0 : count = 0
    · rw [if_pos h0]
      refine ⟨_, rfl, ?_⟩
      show (List.replicate (SearchableWords.build W A ws).words.length true).length
        = ws.length
      rw [List.length_replicate]
      rfl
    · rw [if_neg h0]
      by_cases hWc : count = W
      · rw [if_pos hWc]
        show (∃ mask, (SearchableWords.build W A ws).columns.get?
          (W * 3 * chr + W + count) = some mask ∧ mask.length = ws.length)
        apply build_get?_some
        rw [build_columns_length]
        have hWpos : 1 ≤ W := by omega
        have h1 : W * 3 * chr + W + count < W * 3 * chr + W * 3 := by omega
        have h2 : W * 3 * chr + W * 3 = W * 3 * (chr + 1) := by ring
        have h3 : W * 3 * (chr + 1) ≤ W * 3 * A := Nat.mul_le_mul_left _ (by omega)
        have h4 : A * (W + (W + 1) + (W - 1)) = W * 3 * A := by
          have : W + (W + 1) + (W - 1) = W * 3 := by omega
          rw [this]; ring
        omega
      · rw [if_neg hWc]
        apply build_get?_some
        rw [build_columns_length]
        have hWpos : 1 ≤ W := by omega
        have h1 : W * 3 * chr + W * 2 + 1 + count - 1 < W * 3 * chr + W * 3 := by omega
        have h2 : W * 3 * chr + W * 3 = W * 3 * (chr + 1) := by ring
        have h3 : W * 3 * (chr + 1) ≤ W * 3 * A := Nat.mul_le_mul_left _ (by omega)
        have h4 : A * (W + (W + 1) + (W - 1)) = W * 3 * A := by
          have : W + (W + 1) + (W - 1) = W * 3 := by omega
          rw [this]; ring
        omega
  | not_ok q _ ih =>
    rcases ih with ⟨mask, hmask, hmlen⟩
    refine ⟨Column.negate mask, ?_, by simp [Column.negate, hmlen]⟩
    show (eval_query (SearchableWords.build W A ws) q).map Column.negate = _
    rw [hmask]
    rfl
  | and_ok qs _ ih =>
    show (∃ mask, eval_query_fold_and (SearchableWords.build W A ws) qs
      (some (Column.from_true (SearchableWords.build W A ws).words.length))
        = some mask ∧ mask.length = ws.length)
    exact eval_fold_and_some _ ws.length qs _
      (by rw [Column.from_true, List.length_replicate]; rfl) ih
  | or_ok qs _ ih =>
    show (∃ mask, eval_query_fold_or (SearchableWords.build W A ws) qs
      (some (Column.from_false (SearchableWords.build W A ws).words.length))
        = some mask ∧ mask.length = ws.length)
    exact eval_fold_or_some _ ws.length qs _
      (by rw [Column.from_false, List.length_replicate]; rfl) ih

/-- Witness for C10 on a concrete table and a nested in-bounds query. -/
theorem eval_query_in_bounds_safe_witness :
    ∃ mask, eval_query (SearchableWords.build 2 2 [[0, 1], [1, 0]])
      (Query.And [Query.Match 0 0, Query.Not (Query.CountAtLeast 1 1),
        Query.Or [Query.CountExact 2 0]]) = some mask ∧ mask.length = 2 := by
  refine eval_query_in_bounds_safe 2 2 [[0, 1], [1, 0]] _ ?_
  apply query_in_bounds.and_ok
  intro q hq
  rcases List.mem_cons.mp hq with rfl | hq
  · exact query_in_bounds.match_ok 0 0 (by omega) (by omega)
  rcases List.mem_cons.mp hq with rfl | hq
  · exact query_in_bounds.not_ok _
      (query_in_bounds.count_at_least_ok 1 1 (by omega) (by omega))
  rcases List.mem_cons.mp hq with rfl | hq
  · apply query_in_bounds.or_ok
    intro q' hq'
    rcases List.mem_cons.mp hq' with rfl | hq'
    · exact query_in_bounds.count_exact_ok 2 0 (by omega) (by omega)
    · exact absurd hq' (List.not_mem_nil q')
  · exact absurd hq (List.not_mem_nil q)

/-! ## Counting facts about realizable hints -/

theorem kC_eq (g w : List ℕ) (hw : w.length = g.length) (c : ℕ) :
    num_per_char_hint g (from_guess_and_answer g w) c CharHint.Correct
      = ((List.range g.length).filter
          (fun i => decide (g.getD i 0 = c ∧ w.getD i 0 = g.getD i 0))).length := by
  unfold num_per_char_hint
  congr 1
  apply List.filter_congr
  intro i hi
  rw [List.mem_range] at hi
  rw [decide_eq_decide]
  exact and_congr_right (fun _ => (from_guess_and_answer_correct_iff g w hw i hi))

theorem count_eq_kC_add_missed (g w : List ℕ) (hw : w.length = g.length) (c : ℕ) :
    count_chr w c
      = num_per_char_hint g (from_guess_and_answer g w) c CharHint.Correct
        + missed_answer_char_count g w c := by
  rw [count_chr, ← range_filter_length (fun x => decide (x = c)) 0 w, hw,
    length_filter_and_split (fun i => decide (w.getD i 0 = c))
      (fun i => decide (w.getD i 0 = g.getD i 0))]
  congr 1
  · rw [kC_eq g w hw c]
    congr 1
    apply List.filter_congr
    intro i _
    rw [show ∀ a b : Prop, ∀ [Decidable a] [Decidable b],
        (decide a && decide b) = decide (a ∧ b) from fun a b _ _ => by
      by_cases ha : a <;> by_cases hb : b <;> simp [ha, hb]]
    rw [decide_eq_decide]
    constructor
    · rintro ⟨h1, h2⟩
      exact ⟨by rw [← h2]; exact h1, h2⟩
    · rintro ⟨h1, h2⟩
      exact ⟨by rw [h2]; exact h1, h2⟩
  · unfold missed_answer_char_count
    congr 1
    apply List.filter_congr
    intro i _
    rw [show ∀ a b : Prop, ∀ [Decidable a] [Decidable b],
        (decide a && !decide b) = decide (a ∧ ¬b) from fun a b _ _ => by
      by_cases ha : a <;> by_cases hb : b <;> simp [ha, hb]]

theorem decide_and_decide (a b : Prop) [Decidable a] [Decidable b] :
    (decide a && decide b) = decide (a ∧ b) := by
  by_cases ha : a <;> by_cases hb : b <;> simp [ha, hb]

theorem elsewhere_filter_eq_marked (g w : List ℕ) (hw : w.length = g.length) (c : ℕ) :
    (List.range g.length).filter
      (fun i => decide (g.getD i 0 = c
        ∧ (from_guess_and_answer g w).getD i CharHint.Correct = CharHint.Elsewhere))
      = marked_inds g w c := by
  have htake : marked_inds g w c
      = ((List.range g.length).filter
          (fun i => decide (g.getD i 0 = c ∧ ¬(w.getD i 0 = g.getD i 0)))).take
          (min (missed_answer_char_count g w c)
            (incorrect_guess_char_inds g w c).length) := rfl
  rw [htake, filter_range_take]
  symm
  apply List.filter_congr
  intro i hi
  rw [List.mem_range] at hi
  rw [Bool.eq_iff_iff]
  simp only [Bool.and_eq_true, decide_eq_true_eq]
  have hchar := from_guess_and_answer_getD g w hw i hi CharHint.Correct
  have hrankeq : g.getD i 0 = c → hint_rank g w i
      = ((List.range i).filter
          (fun j => decide (g.getD j 0 = c ∧ ¬(w.getD j 0 = g.getD j 0)))).length := by
    intro hgc
    unfold hint_rank
    congr 1
    apply List.filter_congr
    intro j _
    rw [Bool.eq_iff_iff]
    simp only [decide_eq_true_eq, hgc]
  constructor
  · rintro ⟨⟨hgc, hcor⟩, hmin⟩
    refine ⟨hgc, ?_⟩
    rw [if_neg hcor] at hchar
    rw [if_pos (by rw [hrankeq hgc, hgc]; omega)] at hchar
    exact hchar
  · rintro ⟨hgc, hels⟩
    by_cases hcor : w.getD i 0 = g.getD i 0
    · rw [if_pos hcor] at hchar
      rw [hchar] at hels
      exact absurd hels (by simp)
    · rw [if_neg hcor] at hchar
      by_cases hrank : hint_rank g w i < missed_answer_char_count g w (g.getD i 0)
      · have hm : ((List.range i).filter
            (fun j => decide (g.getD j 0 = c ∧ ¬(w.getD j 0 = g.getD j 0)))).length
              < missed_answer_char_count g w c := by
          rw [← hrankeq hgc, ← hgc]
          exact hrank
        have hrankL := rank_lt_filter_length
          (fun j => decide (g.getD j 0 = c ∧ ¬(w.getD j 0 = g.getD j 0)))
          g.length i hi
          (by simp only [decide_eq_true_eq]; exact ⟨hgc, hcor⟩)
        refine ⟨⟨hgc, hcor⟩, ?_⟩
        have hL : ((List.range i).filter
            (fun j => decide (g.getD j 0 = c ∧ ¬(w.getD j 0 = g.getD j 0)))).length
              < (incorrect_guess_char_inds g w c).length := hrankL
        omega
      · rw [if_neg hrank] at hchar
        rw [hchar] at hels
        exact absurd hels (by simp)

theorem kE_eq (g w : List ℕ) (hw : w.length = g.length) (c : ℕ) :
    num_per_char_hint g (from_guess_and_answer g w) c CharHint.Elsewhere
      = min (missed_answer_char_count g w c) (incorrect_guess_char_inds g w c).length := by
  unfold num_per_char_hint
  rw [elsewhere_filter_eq_marked g w hw c]
  have htake : marked_inds g w c
      = (incorrect_guess_char_inds g w c).take
          (min (missed_answer_char_count g w c)
            (incorrect_guess_char_inds g w c).length) := rfl
  rw [htake, List.length_take]
  omega

theorem I_eq_kE_add_kN (g w : List ℕ) (hw : w.length = g.length) (c : ℕ) :
    (incorrect_guess_char_inds g w c).length
      = num_per_char_hint g (from_guess_and_answer g w) c CharHint.Elsewhere
        + num_per_char_hint g (from_guess_and_answer g w) c CharHint.Nowhere := by
  unfold incorrect_guess_char_inds num_per_char_hint
  have hcongr : (List.range g.length).filter
        (fun i => decide (g.getD i 0 = c ∧ ¬(w.getD i 0 = g.getD i 0)))
      = (List.range g.length).filter
        (fun i => decide (g.getD i 0 = c
          ∧ ¬((from_guess_and_answer g w).getD i CharHint.Correct = CharHint.Correct))) := by
    apply List.filter_congr
    intro i hi
    rw [List.mem_range] at hi
    rw [decide_eq_decide]
    exact and_congr_right (fun _ =>
      not_congr (from_guess_and_answer_correct_iff g w hw i hi).symm)
  rw [hcongr,
    length_filter_and_split
      (fun i => decide (g.getD i 0 = c
        ∧ ¬((from_guess_and_answer g w).getD i CharHint.Correct = CharHint.Correct)))
      (fun i => decide ((from_guess_and_answer g w).getD i CharHint.Correct
        = CharHint.Elsewhere))]
  congr 1
  · congr 1
    apply List.filter_congr
    intro i _
    rw [Bool.eq_iff_iff]
    simp only [Bool.and_eq_true, decide_eq_true_eq]
    constructor
    · rintro ⟨⟨hgc, _⟩, hels⟩
      exact ⟨hgc, hels⟩
    · rintro ⟨hgc, hels⟩
      exact ⟨⟨hgc, by rw [hels]; simp⟩, hels⟩
  · congr 1
    apply List.filter_congr
    intro i _
    rw [Bool.eq_iff_iff]
    simp only [Bool.and_eq_true, Bool.not_eq_true', decide_eq_true_eq,
      decide_eq_false_iff_not]
    constructor
    · rintro ⟨⟨hgc, hnc⟩, hne⟩
      refine ⟨hgc, ?_⟩
      cases hval : (from_guess_and_answer g w).getD i CharHint.Correct with
      | Correct => exact absurd hval hnc
      | Elsewhere => exact absurd hval hne
      | Nowhere => rfl
    · rintro ⟨hgc, hnow⟩
      rw [hnow]
      refine ⟨⟨hgc, by simp⟩, by simp⟩

theorem kC_add_kE_le (g : List ℕ) (h : List CharHint) (c : ℕ) :
    num_per_char_hint g h c CharHint.Correct + num_per_char_hint g h c CharHint.Elsewhere
      ≤ g.length := by
  unfold num_per_char_hint
  have hsplit := length_filter_and_split
    (fun i => decide (g.getD i 0 = c))
    (fun i => decide (h.getD i CharHint.Correct = CharHint.Correct))
    (List.range g.length)
  have hsplit2 := length_filter_and_split
    (fun i => decide (g.getD i 0 = c) && !decide (h.getD i CharHint.Correct = CharHint.Correct))
    (fun i => decide (h.getD i CharHint.Correct = CharHint.Elsewhere))
    (List.range g.length)
  have hle := List.length_filter_le (fun i => decide (g.getD i 0 = c)) (List.range g.length)
  rw [List.length_range] at hle
  have e1 : ((List.range g.length).filter
      (fun i => decide (g.getD i 0 = c)
        && decide (h.getD i CharHint.Correct = CharHint.Correct))).length
      = ((List.range g.length).filter
        (fun i => decide (g.getD i 0 = c
          ∧ h.getD i CharHint.Correct = CharHint.Correct))).length := by
    congr 1
    apply List.filter_congr
    intro i _
    rw [decide_and_decide]
  have e2 : (((List.range g.length).filter
      (fun i => (decide (g.getD i 0 = c)
        && !decide (h.getD i CharHint.Correct = CharHint.Correct))
        && decide (h.getD i CharHint.Correct = CharHint.Elsewhere)))).length
      = ((List.range g.length).filter
        (fun i => decide (g.getD i 0 = c
          ∧ h.getD i CharHint.Correct = CharHint.Elsewhere))).length := by
    congr 1
    apply List.filter_congr
    intro i _
    rw [Bool.eq_iff_iff]
    simp only [Bool.and_eq_true, Bool.not_eq_true', decide_eq_true_eq,
      decide_eq_false_iff_not]
    constructor
    · rintro ⟨⟨hgc, _⟩, hels⟩
      exact ⟨hgc, hels⟩
    · rintro ⟨hgc, hels⟩
      exact ⟨⟨hgc, by rw [hels]; simp⟩, hels⟩
  omega

theorem mem_incorrect_chars (g : List ℕ) (h : List CharHint) (c : ℕ) :
    c ∈ incorrect_chars g h
      ↔ ∃ i, i < g.length ∧ g.getD i 0 = c
          ∧ ¬(h.getD i CharHint.Correct = CharHint.Correct) := by
  unfold incorrect_chars
  rw [List.mem_dedup]
  constructor
  · intro hm
    rcases List.mem_map.mp hm with ⟨i, hif, rfl⟩
    rcases List.mem_filter.mp hif with ⟨hir, hpred⟩
    rw [List.mem_range] at hir
    rw [decide_eq_true_eq] at hpred
    exact ⟨i, hir, rfl, hpred⟩
  · rintro ⟨i, hir, hgc, hpred⟩
    apply List.mem_map.mpr
    refine ⟨i, List.mem_filter.mpr ⟨List.mem_range.mpr hir, ?_⟩, hgc⟩
    rw [decide_eq_true_eq]
    exact hpred

/-! ## Semantics of the compiled clue query -/

theorem query_holds_all_iff (w : List ℕ) :
    ∀ qs : List Query, query_holds_all qs w = true ↔ ∀ q ∈ qs, query_holds q w = true := by
  intro qs
  induction qs with
  | nil =>
    constructor
    · intro _ q hq
      exact absurd hq (List.not_mem_nil q)
    · intro _
      rfl
  | cons q rest ih =>
    show (query_holds q w && query_holds_all rest w) = true ↔ _
    rw [Bool.and_eq_true, ih]
    constructor
    · rintro ⟨h1, h2⟩ q' hq'
      rcases List.mem_cons.mp hq' with rfl | hq'
      · exact h1
      · exact h2 q' hq'
    · intro hall
      exact ⟨hall q (List.mem_cons_self q rest),
        fun q' hq' => hall q' (List.mem_cons_of_mem q hq')⟩

theorem clue_query_positional_atom (g : List ℕ) (h : List CharHint) (w' : List ℕ)
    (i : ℕ) :
    query_holds (match h.getD i CharHint.Correct with
      | CharHint.Correct => Query.Match i (g.getD i 0)
      | CharHint.Elsewhere => Query.Not (Query.Match i (g.getD i 0))
      | CharHint.Nowhere => Query.Not (Query.Match i (g.getD i 0))) w' = true
      ↔ (w'.getD i 0 = g.getD i 0 ↔ h.getD i CharHint.Correct = CharHint.Correct) := by
  cases hcase : h.getD i CharHint.Correct
  · show decide (w'.getD i 0 = g.getD i 0) = true ↔ _
    rw [decide_eq_true_eq]
    simp
  · show (!decide (w'.getD i 0 = g.getD i 0)) = true ↔ _
    rw [Bool.not_eq_true', decide_eq_false_iff_not]
    simp
  · show (!decide (w'.getD i 0 = g.getD i 0)) = true ↔ _
    rw [Bool.not_eq_true', decide_eq_false_iff_not]
    simp

theorem clue_query_count_atom (g : List ℕ) (h : List CharHint) (w' : List ℕ) (c : ℕ) :
    (∀ q ∈ (if 0 < num_per_char_hint g h c CharHint.Nowhere then
        [Query.CountExact (num_per_char_hint g h c CharHint.Correct
          + num_per_char_hint g h c CharHint.Elsewhere) c]
      else if 0 < num_per_char_hint g h c CharHint.Elsewhere then
        [Query.CountAtLeast (num_per_char_hint g h c CharHint.Correct
          + num_per_char_hint g h c CharHint.Elsewhere) c]
      else []), query_holds q w' = true)
      ↔ ((0 < num_per_char_hint g h c CharHint.Nowhere
            → count_chr w' c = num_per_char_hint g h c CharHint.Correct
              + num_per_char_hint g h c CharHint.Elsewhere)
        ∧ (num_per_char_hint g h c CharHint.Nowhere = 0
            → 0 < num_per_char_hint g h c CharHint.Elsewhere
            → num_per_char_hint g h c CharHint.Correct
              + num_per_char_hint g h c CharHint.Elsewhere ≤ count_chr w' c)) := by
  by_cases hkN : 0 < num_per_char_hint g h c CharHint.Nowhere
  · rw [if_pos hkN, List.forall_mem_singleton]
    show decide (count_chr w' c = _) = true ↔ _
    rw [decide_eq_true_eq]
    constructor
    · intro heq
      exact ⟨fun _ => heq, fun h0 => absurd hkN (by omega)⟩
    · rintro ⟨hA, _⟩
      exact hA hkN
  · rw [if_neg hkN]
    by_cases hkE : 0 < num_per_char_hint g h c CharHint.Elsewhere
    · rw [if_pos hkE, List.forall_mem_singleton]
      show decide (_ ≤ count_chr w' c) = true ↔ _
      rw [decide_eq_true_eq]
      constructor
      · intro hle
        exact ⟨fun hx => absurd hx hkN, fun _ _ => hle⟩
      · rintro ⟨_, hB⟩
        exact hB (by omega) hkE
    · rw [if_neg hkE]
      constructor
      · intro _
        exact ⟨fun hx => absurd hx hkN, fun _ hx => absurd hx hkE⟩
      · intro _ q hq
        exact absurd hq (List.not_mem_nil q)

theorem clue_query_holds_iff (g : List ℕ) (h : List CharHint) (w' : List ℕ) :
    query_holds (clue_to_query g h) w' = true
      ↔ (∀ i < g.length,
            (w'.getD i 0 = g.getD i 0 ↔ h.getD i CharHint.Correct = CharHint.Correct))
        ∧ (∀ c ∈ incorrect_chars g h,
            (0 < num_per_char_hint g h c CharHint.Nowhere
              → count_chr w' c
                  = num_per_char_hint g h c CharHint.Correct
                    + num_per_char_hint g h c CharHint.Elsewhere)
            ∧ (num_per_char_hint g h c CharHint.Nowhere = 0
              → 0 < num_per_char_hint g h c CharHint.Elsewhere
              → num_per_char_hint g h c CharHint.Correct
                  + num_per_char_hint g h c CharHint.Elsewhere ≤ count_chr w' c)) := by
  unfold clue_to_query
  show query_holds_all (_ ++ _) w' = true ↔ _
  rw [query_holds_all_iff, List.forall_mem_append, List.forall_mem_map]
  apply and_congr
  · constructor
    · intro hall i hi
      exact (clue_query_positional_atom g h w' i).mp (hall i (List.mem_range.mpr hi))
    · intro hall i hir
      exact (clue_query_positional_atom g h w' i).mpr (hall i (List.mem_range.mp hir))
  · constructor
    · intro hall c hc
      refine (clue_query_count_atom g h w' c).mp ?_
      intro q hq
      exact hall q (List.mem_flatMap.mpr ⟨c, hc, hq⟩)
    · intro hall q hq
      rcases List.mem_flatMap.mp hq with ⟨c, hc, hqc⟩
      exact (clue_query_count_atom g h w' c).mpr (hall c hc) q hqc

theorem conditions_of_hint_eq (g w w' : List ℕ)
    (hw' : w'.length = g.length)
    (heq : from_guess_and_answer g w' = from_guess_and_answer g w) :
    (∀ i < g.length, (w'.getD i 0 = g.getD i 0
        ↔ (from_guess_and_answer g w).getD i CharHint.Correct = CharHint.Correct))
    ∧ (∀ c ∈ incorrect_chars g (from_guess_and_answer g w),
        (0 < num_per_char_hint g (from_guess_and_answer g w) c CharHint.Nowhere
          → count_chr w' c
              = num_per_char_hint g (from_guess_and_answer g w) c CharHint.Correct
                + num_per_char_hint g (from_guess_and_answer g w) c CharHint.Elsewhere)
        ∧ (num_per_char_hint g (from_guess_and_answer g w) c CharHint.Nowhere = 0
          → 0 < num_per_char_hint g (from_guess_and_answer g w) c CharHint.Elsewhere
          → num_per_char_hint g (from_guess_and_answer g w) c CharHint.Correct
              + num_per_char_hint g (from_guess_and_answer g w) c CharHint.Elsewhere
              ≤ count_chr w' c)) := by
  constructor
  · intro i hi
    rw [← heq]
    exact (from_guess_and_answer_correct_iff g w' hw' i hi).symm
  · intro c _
    have hcount := count_eq_kC_add_missed g w' hw' c
    have hkE := kE_eq g w' hw' c
    have hI := I_eq_kE_add_kN g w' hw' c
    rw [heq] at hcount hkE hI
    constructor
    · intro hkN
      omega
    · intro hkN0 hkEpos
      omega

theorem hint_eq_of_conditions (g w w' : List ℕ)
    (hw : w.length = g.length) (hw' : w'.length = g.length)
    (hpos : ∀ i < g.length, (w'.getD i 0 = g.getD i 0
        ↔ (from_guess_and_answer g w).getD i CharHint.Correct = CharHint.Correct))
    (hcnt : ∀ c ∈ incorrect_chars g (from_guess_and_answer g w),
        (0 < num_per_char_hint g (from_guess_and_answer g w) c CharHint.Nowhere
          → count_chr w' c
              = num_per_char_hint g (from_guess_and_answer g w) c CharHint.Correct
                + num_per_char_hint g (from_guess_and_answer g w) c CharHint.Elsewhere)
        ∧ (num_per_char_hint g (from_guess_and_answer g w) c CharHint.Nowhere = 0
          → 0 < num_per_char_hint g (from_guess_and_answer g w) c CharHint.Elsewhere
          → num_per_char_hint g (from_guess_and_answer g w) c CharHint.Correct
              + num_per_char_hint g (from_guess_and_answer g w) c CharHint.Elsewhere
              ≤ count_chr w' c)) :
    from_guess_and_answer g w' = from_guess_and_answer g w := by
  have hpp : ∀ j, j < g.length → (w'.getD j 0 = g.getD j 0 ↔ w.getD j 0 = g.getD j 0) :=
    fun j hj => (hpos j hj).trans (from_guess_and_answer_correct_iff g w hw j hj)
  apply List.ext_getElem
  · rw [from_guess_and_answer_length, from_guess_and_answer_length, hw, hw']
  intro i h1 h2
  have hi : i < g.length := by
    rw [from_guess_and_answer_length] at h1
    omega
  rw [← List.getD_eq_getElem (from_guess_and_answer g w') CharHint.Correct h1,
      ← List.getD_eq_getElem (from_guess_and_answer g w) CharHint.Correct h2,
      from_guess_and_answer_getD g w' hw' i hi CharHint.Correct,
      from_guess_and_answer_getD g w hw i hi CharHint.Correct]
  by_cases hc : w'.getD i 0 = g.getD i 0
  · rw [if_pos hc, if_pos ((hpp i hi).mp hc)]
  · have hcw : ¬(w.getD i 0 = g.getD i 0) := fun hx => hc ((hpp i hi).mpr hx)
    rw [if_neg hc, if_neg hcw]
    have hrank_eq : hint_rank g w' i = hint_rank g w i := by
      unfold hint_rank
      congr 1
      apply List.filter_congr
      intro j hj
      rw [List.mem_range] at hj
      rw [decide_eq_decide]
      exact and_congr_right (fun _ => not_congr (hpp j (by omega)))
    have hI_eq : incorrect_guess_char_inds g w' (g.getD i 0)
        = incorrect_guess_char_inds g w (g.getD i 0) := by
      unfold incorrect_guess_char_inds
      apply List.filter_congr
      intro j hj
      rw [List.mem_range] at hj
      rw [decide_eq_decide]
      exact and_congr_right (fun _ => not_congr (hpp j hj))
    have hrank_lt : hint_rank g w i
        < (incorrect_guess_char_inds g w (g.getD i 0)).length := by
      apply rank_lt_filter_length _ g.length i hi
      simp only [decide_eq_true_eq]
      exact ⟨trivial, hcw⟩
    have hcmem : g.getD i 0 ∈ incorrect_chars g (from_guess_and_answer g w) := by
      rw [mem_incorrect_chars]
      refine ⟨i, hi, rfl, ?_⟩
      rw [from_guess_and_answer_correct_iff g w hw i hi]
      exact hcw
    have hkC : num_per_char_hint g (from_guess_and_answer g w') (g.getD i 0)
          CharHint.Correct
        = num_per_char_hint g (from_guess_and_answer g w) (g.getD i 0)
          CharHint.Correct := by
      rw [kC_eq g w' hw' (g.getD i 0), kC_eq g w hw (g.getD i 0)]
      congr 1
      apply List.filter_congr
      intro j hj
      rw [List.mem_range] at hj
      rw [decide_eq_decide]
      exact and_congr_right (fun _ => hpp j hj)
    have hcount := count_eq_kC_add_missed g w' hw' (g.getD i 0)
    rw [hkC] at hcount
    have hkEw := kE_eq g w hw (g.getD i 0)
    have hIw := I_eq_kE_add_kN g w hw (g.getD i 0)
    have hiff : hint_rank g w' i < missed_answer_char_count g w' (g.getD i 0)
        ↔ hint_rank g w i < missed_answer_char_count g w (g.getD i 0) := by
      rw [hrank_eq]
      rcases hcnt (g.getD i 0) hcmem with ⟨hA, hB⟩
      by_cases hkN : 0 < num_per_char_hint g (from_guess_and_answer g w) (g.getD i 0)
          CharHint.Nowhere
      · have hA' := hA hkN
        omega
      · have hkE : 0 < num_per_char_hint g (from_guess_and_answer g w) (g.getD i 0)
            CharHint.Elsewhere := by omega
        have hB' := hB (by omega) hkE
        omega
    by_cases hr : hint_rank g w i < missed_answer_char_count g w (g.getD i 0)
    · rw [if_pos hr, if_pos (hiff.mpr hr)]
    · rw [if_neg hr, if_neg (fun hx => hr (hiff.mp hx))]

theorem clue_query_iff_same_hint (g w w' : List ℕ)
    (hw : w.length = g.length) (hw' : w'.length = g.length) :
    query_holds (clue_to_query g (from_guess_and_answer g w)) w' = true
      ↔ from_guess_and_answer g w' = from_guess_and_answer g w := by
  rw [clue_query_holds_iff]
  constructor
  · rintro ⟨hpos, hcnt⟩
    exact hint_eq_of_conditions g w w' hw hw' hpos hcnt
  · intro heq
    exact conditions_of_hint_eq g w w' hw' heq

theorem clue_query_eval_content (W A : ℕ) (ws : List (List ℕ)) (g : List ℕ)
    (h : List CharHint)
    (hlen : ∀ u ∈ ws, u.length = W)
    (hg : g.length = W) (hgchars : ∀ ch ∈ g, ch < A) :
    eval_query (SearchableWords.build W A ws) (clue_to_query g h)
      = some (ws.map (fun u => query_holds (clue_to_query g h) u)) := by
  unfold clue_to_query
  refine Eq.trans (eval_and_content W A ws _ ?_) rfl
  intro q hq
  rcases List.mem_append.mp hq with hq1 | hq2
  · rcases List.mem_map.mp hq1 with ⟨i, hir, rfl⟩
    rw [List.mem_range] at hir
    have hiW : i < W := by omega
    have hchr : g.getD i 0 < A := by
      apply hgchars
      rw [List.getD_eq_getElem g 0 hir]
      exact List.getElem_mem hir
    cases hcase : h.getD i CharHint.Correct
    · exact eval_match_content W A ws i (g.getD i 0) hiW hchr
    · exact eval_not_content (SearchableWords.build W A ws)
        (Query.Match i (g.getD i 0))
        (fun u => query_holds (Query.Match i (g.getD i 0)) u)
        (eval_match_content W A ws i (g.getD i 0) hiW hchr)
    · exact eval_not_content (SearchableWords.build W A ws)
        (Query.Match i (g.getD i 0))
        (fun u => query_holds (Query.Match i (g.getD i 0)) u)
        (eval_match_content W A ws i (g.getD i 0) hiW hchr)
  · rcases List.mem_flatMap.mp hq2 with ⟨c, hcmem, hqc⟩
    rcases (mem_incorrect_chars g h c).mp hcmem with ⟨j, hj, hgc, _⟩
    have hW : 1 ≤ W := by omega
    have hcA : c < A := by
      rw [← hgc]
      apply hgchars
      rw [List.getD_eq_getElem g 0 hj]
      exact List.getElem_mem hj
    by_cases hkN : 0 < num_per_char_hint g h c CharHint.Nowhere
    · rw [if_pos hkN] at hqc
      rcases List.mem_singleton.mp hqc with rfl
      exact eval_count_exact_content W A ws _ c hW hcA
        (by rw [← hg]; exact kC_add_kE_le g h c)
    · rw [if_neg hkN] at hqc
      by_cases hkE : 0 < num_per_char_hint g h c CharHint.Elsewhere
      · rw [if_pos hkE] at hqc
        rcases List.mem_singleton.mp hqc with rfl
        exact eval_count_at_least_content W A ws _ c hW hcA
          (by rw [← hg]; exact kC_add_kE_le g h c) hlen
      · rw [if_neg hkE] at hqc
        exact absurd hqc (List.not_mem_nil q)

theorem filter_words_build_map (W A : ℕ) (ws : List (List ℕ)) (f : List ℕ → Bool) :
    filter_words (SearchableWords.build W A ws) (ws.map f) = ws.filter f := by
  unfold filter_words Column.true_inds
  have hwords : (SearchableWords.build W A ws).words = ws := rfl
  rw [hwords, List.length_map]
  have hcong : (List.range ws.length).filter (fun i => (ws.map f).getD i false)
      = (List.range ws.length).filter (fun i => f (ws.getD i [])) := by
    apply List.filter_congr
    intro i hi
    rw [List.mem_range] at hi
    rw [List.getD_eq_getElem (ws.map f) false (by rw [List.length_map]; omega),
      List.getD_eq_getElem ws [] hi]
    exact congrArg (fun x => x) (List.getElem_map f)
  rw [hcong, range_filter_getD_map f [] ws]

/-- **C1.** For every word list `ws` whose words have length `WORD_SIZE` with
characters below `ALPHABET_SIZE`, every guess `g` of the same shape, and every
word `w ∈ ws`: evaluating `clue_to_query(g, h)` with
`h = WordHint::from_guess_and_answer(g, w)` against `SearchableWords::build(ws)`
succeeds, and filtering the words by the resulting mask yields exactly the
words `w'` of `ws` with `from_guess_and_answer(g, w') == h` — i.e. exactly
`dumb_search_words ws g h` — and in particular includes `w` itself. -/
theorem clue_query_refines_dumb_search (W A : ℕ) (ws : List (List ℕ))
    (g w : List ℕ)
    (hlen : ∀ u ∈ ws, u.length = W) (hg : g.length = W)
    (hgchars : ∀ ch ∈ g, ch < A) (hw : w ∈ ws) :
    ∃ mask, eval_query (SearchableWords.build W A ws)
        (clue_to_query g (from_guess_and_answer g w)) = some mask
      ∧ filter_words (SearchableWords.build W A ws) mask
          = dumb_search_words ws g (from_guess_and_answer g w)
      ∧ w ∈ filter_words (SearchableWords.build W A ws) mask := by
  have hfd : filter_words (SearchableWords.build W A ws)
      (ws.map (fun u => query_holds (clue_to_query g (from_guess_and_answer g w)) u))
      = dumb_search_words ws g (from_guess_and_answer g w) := by
    rw [filter_words_build_map]
    unfold dumb_search_words
    apply List.filter_congr
    intro u hu
    rw [Bool.eq_iff_iff, decide_eq_true_eq]
    exact clue_query_iff_same_hint g w u (by rw [hlen w hw, hg]) (by rw [hlen u hu, hg])
  refine ⟨ws.map (fun u => query_holds (clue_to_query g (from_guess_and_answer g w)) u),
    clue_query_eval_content W A ws g (from_guess_and_answer g w) hlen hg hgchars,
    hfd, ?_⟩
  rw [hfd]
  unfold dumb_search_words
  exact List.mem_filter.mpr ⟨hw, decide_eq_true rfl⟩

/-- Witness for C1: a three-word table over `W = 2`, `A = 2`, guess `[0, 1]`,
answer `[1, 0]`. -/
theorem clue_query_refines_dumb_search_witness :
    ∃ mask, eval_query (SearchableWords.build 2 2 [[0, 1], [1, 0], [0, 0]])
        (clue_to_query [0, 1] (from_guess_and_answer [0, 1] [1, 0])) = some mask
      ∧ filter_words (SearchableWords.build 2 2 [[0, 1], [1, 0], [0, 0]]) mask
          = dumb_search_words [[0, 1], [1, 0], [0, 0]] [0, 1]
              (from_guess_and_answer [0, 1] [1, 0])
      ∧ [1, 0] ∈ filter_words (SearchableWords.build 2 2 [[0, 1], [1, 0], [0, 0]]) mask :=
  clue_query_refines_dumb_search 2 2 [[0, 1], [1, 0], [0, 0]] [0, 1] [1, 0]
    (by decide) (by decide) (by decide) (by decide)

/-! ## C2: the running-cost update of the class loop -/

/-- **C2 (counterexample).** The spec's update `(child.est_cost − clb) · lik`
disagrees with the code.  First conjunct: a leaf child (`est = 1`) in a class
of 1 of 2 candidates (`lik = clb = 1/2`): the code leaves the running cost at
`1` (the scaled difference is `0`, below the `1e-6` threshold), while the
claim adds `(1 − 1/2)·(1/2) = 1/4`.  Second conjunct: even when the code does
update (`child.est = 3`), it adds `child.est·lik − clb = 1`, not
`(child.est − clb)·lik = 5/4`. -/
theorem apply_child_cost_formula_counterexample :
    apply_child_cost 1 1 (1 / 2) (1 / 2) ≠ 1 + (1 - 1 / 2) * (1 / 2)
    ∧ apply_child_cost 0 3 (1 / 2) (1 / 2) ≠ 0 + (3 - 1 / 2) * (1 / 2) := by
  constructor
  · unfold apply_child_cost
    norm_num
  · unfold apply_child_cost
    show (if (1 : ℚ) / 1000000 < |3 * (1 / 2) - 1 / 2| then (0 : ℚ) + (3 * (1 / 2) - 1 / 2)
      else 0) ≠ 0 + (3 - 1 / 2) * (1 / 2)
    rw [show |(3 : ℚ) * (1 / 2) - 1 / 2| = 1 by rw [abs_of_nonneg] <;> norm_num]
    norm_num

/-- **C2 (amended).** One step of the class loop of
`compute_decision_tree_aggressive` when the recursive child call for a
non-winning hint class succeeds: the code updates the running estimated cost
by adding `child.est_cost · likelihood − class_lower_bound` — not
`(child.est_cost − class_lower_bound) · likelihood` — and only when that
summand's absolute value exceeds `1e-6` (otherwise the running cost is left
unchanged); then it appends the child and abandons the guess if the budget
`guess_max_est_cost` is reached. -/
theorem ctda_class_step_cost_update (fuel : ℕ) (hints : List (List ℕ))
    (possible_answers : List ℕ) (d m : ℕ)
    (guess_max_est_cost : ℚ) (hint : ℕ) (hint_possible_answers : List ℕ)
    (rest : List (ℕ × List ℕ)) (guess : TreeNode) (child : TreeNode)
    (hhint : ¬hint = 0)
    (hchild : ctda_go fuel hints hint_possible_answers (d + 1) m
        ((guess_max_est_cost - guess.est_cost
            + (2 * (hint_possible_answers.length : ℚ) - 1) / (possible_answers.length : ℚ))
          / ((hint_possible_answers.length : ℚ) / (possible_answers.length : ℚ)))
        = some child) :
    ctda_process_classes_go (fun hpa cost => ctda_go fuel hints hpa (d + 1) m cost)
        possible_answers guess_max_est_cost ((hint, hint_possible_answers) :: rest) guess
      = (let updated_est :=
           if 1 / 1000000
               < |child.est_cost * ((hint_possible_answers.length : ℚ)
                     / (possible_answers.length : ℚ))
                   - (2 * (hint_possible_answers.length : ℚ) - 1)
                     / (possible_answers.length : ℚ)| then
             guess.est_cost
               + (child.est_cost * ((hint_possible_answers.length : ℚ)
                     / (possible_answers.length : ℚ))
                   - (2 * (hint_possible_answers.length : ℚ) - 1)
                     / (possible_answers.length : ℚ))
           else guess.est_cost
         let guess' := TreeNode.mk guess.should_guess updated_est
           (guess.next ++ [(hint, child)])
         if guess_max_est_cost ≤ guess'.est_cost then none
         else ctda_process_classes_go
           (fun hpa cost => ctda_go fuel hints hpa (d + 1) m cost)
           possible_answers guess_max_est_cost rest guess') := by
  simp only [ctda_process_classes_go, if_neg hhint, hchild]
  rfl

/-- Witness for the amended C2: one class-loop step on a concrete game state
(two candidates, the class `{1}` of the non-winning hint `5`, a leaf child of
cost 1): the scaled difference is `1·(1/2) − 1/2 = 0`, so the running cost
stays `1` and the child is appended. -/
theorem ctda_class_step_cost_update_witness :
    ctda_process_classes_go (fun hpa cost => ctda_go 3 [[0, 5], [5, 0]] hpa (0 + 1) 4 cost)
        [0, 1] 10 [(5, [1])] (TreeNode.mk (GuessFrom.Guess 0) 1 [])
      = some (TreeNode.mk (GuessFrom.Guess 0) 1
          [(5, TreeNode.mk (GuessFrom.Answer 1) 1 [])]) := by
  rw [ctda_class_step_cost_update 3 [[0, 5], [5, 0]] [0, 1] 0 4 10 5 [1] []
      (TreeNode.mk (GuessFrom.Guess 0) 1 []) (TreeNode.mk (GuessFrom.Answer 1) 1 [])
      (by norm_num) ?_]
  · show (let updated_est :=
        if (1 : ℚ) / 1000000 < |1 * (((1 : ℕ) : ℚ) / ((2 : ℕ) : ℚ))
            - (2 * ((1 : ℕ) : ℚ) - 1) / ((2 : ℕ) : ℚ)| then
          (1 : ℚ) + (1 * (((1 : ℕ) : ℚ) / ((2 : ℕ) : ℚ))
            - (2 * ((1 : ℕ) : ℚ) - 1) / ((2 : ℕ) : ℚ))
        else 1
      let guess' := TreeNode.mk (GuessFrom.Guess 0) updated_est
        ([] ++ [(5, TreeNode.mk (GuessFrom.Answer 1) 1 [])])
      if (10 : ℚ) ≤ guess'.est_cost then none
      else ctda_process_classes_go
        (fun hpa cost => ctda_go 3 [[0, 5], [5, 0]] hpa (0 + 1) 4 cost) [0, 1] 10 []
        guess')
      = some (TreeNode.mk (GuessFrom.Guess 0) 1
          [(5, TreeNode.mk (GuessFrom.Answer 1) 1 [])])
    norm_num [TreeNode.est_cost, ctda_process_classes_go]
  · show ctda_go (2 + 1) [[0, 5], [5, 0]] [1] (0 + 1) 4
      ((10 - TreeNode.est_cost (TreeNode.mk (GuessFrom.Guess 0) 1 [])
          + (2 * (([1] : List ℕ).length : ℚ) - 1) / (([0, 1] : List ℕ).length : ℚ))
        / ((([1] : List ℕ).length : ℚ) / (([0, 1] : List ℕ).length : ℚ)))
      = some (TreeNode.mk (GuessFrom.Answer 1) 1 [])
    rw [ctda_go]
    norm_num [TreeNode.est_cost]

/-! ## C3 and C4: shortcut outputs and infeasibility guards -/

/-- **C3.** For every hint matrix, a candidate pair `[w1, w2]` with
`depth ≤ max_depth − 2` and `max_cost ≥ 3/2` yields `Some` node guessing `w1`
with `est_cost = 3/2` and exactly one child, keyed by the hint-matrix entry
for `(w1, w2)`, a childless leaf naming `w2`; and a singleton `[w]` with
`depth < max_depth` and `max_cost ≥ 1` yields a childless leaf guessing `w`
with `est_cost = 1` (depth and max_depth within the `u8` range). -/
theorem ctda_shortcut_nodes (hints : List (List ℕ)) (w1 w2 w : ℕ)
    (depth max_depth : ℕ) (max_cost : ℚ)
    (hd : depth < 256) (hm : max_depth < 256) :
    (depth + 2 ≤ max_depth → 3 / 2 ≤ max_cost →
      compute_decision_tree_aggressive hints [w1, w2] depth max_depth max_cost
        = some (TreeNode.mk (GuessFrom.Answer w1) (3 / 2)
            [((hints.getD w1 []).getD w2 0, TreeNode.mk (GuessFrom.Answer w2) 1 [])]))
    ∧ (depth < max_depth → 1 ≤ max_cost →
      compute_decision_tree_aggressive hints [w] depth max_depth max_cost
        = some (TreeNode.mk (GuessFrom.Answer w) 1 [])) := by
  constructor
  · intro hdepth hcost
    unfold compute_decision_tree_aggressive
    obtain ⟨k, hk⟩ : ∃ k, (max_depth % 256 + 256 - depth % 256) % 256 = k + 1 :=
      ⟨(max_depth % 256 + 256 - depth % 256) % 256 - 1, by omega⟩
    rw [hk, ctda_go]
    simp only [Nat.mod_eq_of_lt hd, Nat.mod_eq_of_lt hm]
    rw [if_neg (show ¬depth = max_depth by omega),
      if_neg (show ¬max_cost < 1 by linarith),
      if_neg (show ¬([w1, w2].length = 1) by norm_num),
      if_neg (show ¬depth = (max_depth + 255) % 256 by omega),
      if_neg (show ¬max_cost < 3 / 2 by linarith),
      if_pos (show [w1, w2].length = 2 by norm_num)]
    rfl
  · intro hdepth hcost
    unfold compute_decision_tree_aggressive
    obtain ⟨k, hk⟩ : ∃ k, (max_depth % 256 + 256 - depth % 256) % 256 = k + 1 :=
      ⟨(max_depth % 256 + 256 - depth % 256) % 256 - 1, by omega⟩
    rw [hk, ctda_go]
    simp only [Nat.mod_eq_of_lt hd, Nat.mod_eq_of_lt hm]
    rw [if_neg (show ¬depth = max_depth by omega),
      if_neg (show ¬max_cost < 1 by linarith),
      if_pos (show [w].length = 1 by norm_num)]
    rfl

/-- Witness for C3, at `depth = 0`, `max_depth = 4`, `max_cost = 10`, the
hint matrix `[[0, 5], [5, 0]]`, pair `[0, 1]` and singleton `[7]`. -/
theorem ctda_shortcut_nodes_witness :
    compute_decision_tree_aggressive [[0, 5], [5, 0]] [0, 1] 0 4 10
      = some (TreeNode.mk (GuessFrom.Answer 0) (3 / 2)
          [(5, TreeNode.mk (GuessFrom.Answer 1) 1 [])])
    ∧ compute_decision_tree_aggressive [[0, 5], [5, 0]] [7] 0 4 10
      = some (TreeNode.mk (GuessFrom.Answer 7) 1 []) := by
  constructor
  · have h := (ctda_shortcut_nodes [[0, 5], [5, 0]] 0 1 7 0 4 10 (by omega) (by omega)).1
      (by omega) (by norm_num)
    rw [h]
    norm_num
  · exact (ctda_shortcut_nodes [[0, 5], [5, 0]] 0 1 7 0 4 10 (by omega) (by omega)).2
      (by omega) (by norm_num)

/-- **C4.** `compute_decision_tree_aggressive` returns `None` whenever
`depth == max_depth` (any candidate set, singletons included) and whenever
`max_cost < 1.0`; and with two or more candidates it additionally returns
`None` whenever `depth == max_depth − 1` or `max_cost < 1.5` (depth and
max_depth within the `u8` range; the guards fire before any search). -/
theorem ctda_infeasible_returns_none (hints : List (List ℕ)) (pa : List ℕ)
    (depth max_depth : ℕ) (max_cost : ℚ)
    (hd : depth < 256) (hm : max_depth < 256) :
    (depth = max_depth →
      compute_decision_tree_aggressive hints pa depth max_depth max_cost = none)
    ∧ (max_cost < 1 →
      compute_decision_tree_aggressive hints pa depth max_depth max_cost = none)
    ∧ (2 ≤ pa.length → depth + 1 = max_depth →
      compute_decision_tree_aggressive hints pa depth max_depth max_cost = none)
    ∧ (2 ≤ pa.length → max_cost < 3 / 2 →
      compute_decision_tree_aggressive hints pa depth max_depth max_cost = none) := by
  refine ⟨?_, ?_, ?_, ?_⟩
  · intro hdm
    unfold compute_decision_tree_aggressive
    rw [show (max_depth % 256 + 256 - depth % 256) % 256 = 0 by omega]
    rfl
  · intro hcost
    by_cases hdm : depth = max_depth
    · unfold compute_decision_tree_aggressive
      rw [show (max_depth % 256 + 256 - depth % 256) % 256 = 0 by omega]
      rfl
    · unfold compute_decision_tree_aggressive
      obtain ⟨k, hk⟩ : ∃ k, (max_depth % 256 + 256 - depth % 256) % 256 = k + 1 :=
        ⟨(max_depth % 256 + 256 - depth % 256) % 256 - 1, by omega⟩
      rw [hk, ctda_go]
      simp only [Nat.mod_eq_of_lt hd, Nat.mod_eq_of_lt hm]
      rw [if_neg hdm, if_pos hcost]
  · intro hlen hdm1
    unfold compute_decision_tree_aggressive
    obtain ⟨k, hk⟩ : ∃ k, (max_depth % 256 + 256 - depth % 256) % 256 = k + 1 :=
      ⟨(max_depth % 256 + 256 - depth % 256) % 256 - 1, by omega⟩
    rw [hk, ctda_go]
    simp only [Nat.mod_eq_of_lt hd, Nat.mod_eq_of_lt hm]
    rw [if_neg (show ¬depth = max_depth by omega)]
    by_cases hc1 : max_cost < 1
    · rw [if_pos hc1]
    · rw [if_neg hc1, if_neg (show ¬(pa.length = 1) by omega),
        if_pos (show depth = (max_depth + 255) % 256 by omega)]
  · intro hlen hc32
    by_cases hdm : depth = max_depth
    · unfold compute_decision_tree_aggressive
      rw [show (max_depth % 256 + 256 - depth % 256) % 256 = 0 by omega]
      rfl
    · unfold compute_decision_tree_aggressive
      obtain ⟨k, hk⟩ : ∃ k, (max_depth % 256 + 256 - depth % 256) % 256 = k + 1 :=
        ⟨(max_depth % 256 + 256 - depth % 256) % 256 - 1, by omega⟩
      rw [hk, ctda_go]
      simp only [Nat.mod_eq_of_lt hd, Nat.mod_eq_of_lt hm]
      rw [if_neg hdm]
      by_cases hc1 : max_cost < 1
      · rw [if_pos hc1]
      · rw [if_neg hc1, if_neg (show ¬(pa.length = 1) by omega)]
        by_cases hdm1 : depth = (max_depth + 255) % 256
        · rw [if_pos hdm1]
        · rw [if_neg hdm1, if_pos hc32]

/-- Witness for C4: concrete instances of all four infeasibility guards. -/
theorem ctda_infeasible_returns_none_witness :
    compute_decision_tree_aggressive [[0, 5], [5, 0]] [0, 1] 3 3 10 = none
    ∧ compute_decision_tree_aggressive [[0, 5], [5, 0]] [0] 0 4 (1 / 2) = none
    ∧ compute_decision_tree_aggressive [[0, 5], [5, 0]] [0, 1] 3 4 10 = none
    ∧ compute_decision_tree_aggressive [[0, 5], [5, 0]] [0, 1] 0 4 (5 / 4) = none := by
  refine ⟨?_, ?_, ?_, ?_⟩
  · exact (ctda_infeasible_returns_none [[0, 5], [5, 0]] [0, 1] 3 3 10 (by omega)
      (by omega)).1 (by omega)
  · exact (ctda_infeasible_returns_none [[0, 5], [5, 0]] [0] 0 4 (1 / 2) (by omega)
      (by omega)).2.1 (by norm_num)
  · exact (ctda_infeasible_returns_none [[0, 5], [5, 0]] [0, 1] 3 4 10 (by omega)
      (by omega)).2.2.1 (by norm_num) (by omega)
  · exact (ctda_infeasible_returns_none [[0, 5], [5, 0]] [0, 1] 0 4 (5 / 4) (by omega)
      (by omega)).2.2.2 (by norm_num) (by norm_num)

/-! ## C8: determinism under the candidate-set iteration order -/

/-- **C8 (counterexample).** The candidate set is a `HashSet` whose iteration
order is unspecified; the solver's output depends on it.  The same two-element
candidate set `{0, 1}` presented in its two iteration orders yields trees
guessing different words (`0` resp. `1`), so the output is not a function of
the inputs alone. -/
theorem ctda_order_dependence_counterexample :
    ([0, 1] : List ℕ).Perm [1, 0]
    ∧ compute_decision_tree_aggressive [[0, 5], [5, 0]] [0, 1] 0 4 10
        = some (TreeNode.mk (GuessFrom.Answer 0) (3 / 2)
            [(5, TreeNode.mk (GuessFrom.Answer 1) 1 [])])
    ∧ compute_decision_tree_aggressive [[0, 5], [5, 0]] [1, 0] 0 4 10
        = some (TreeNode.mk (GuessFrom.Answer 1) (3 / 2)
            [(5, TreeNode.mk (GuessFrom.Answer 0) 1 [])])
    ∧ ¬(GuessFrom.Answer 0 = GuessFrom.Answer 1) := by
  refine ⟨by decide, ?_, ?_, by decide⟩
  · show ctda_go ((4 % 256 + 256 - 0 % 256) % 256) [[0, 5], [5, 0]] [0, 1] 0 4 10 = _
    norm_num
    show ctda_go (3 + 1) [[0, 5], [5, 0]] [0, 1] 0 4 10 = _
    rw [ctda_go]
    norm_num
  · show ctda_go ((4 % 256 + 256 - 0 % 256) % 256) [[0, 5], [5, 0]] [1, 0] 0 4 10 = _
    norm_num
    show ctda_go (3 + 1) [[0, 5], [5, 0]] [1, 0] 0 4 10 = _
    rw [ctda_go]
    norm_num

/-- **C8 (amended).** For two-element candidate sets the observable outcome is
iteration-order independent: presenting the set in either order yields the
same `Some`/`None` outcome and the same root `est_cost` (the guessed word
itself still depends on the order, as the counterexample shows). -/
theorem ctda_pair_order_invariant (hints : List (List ℕ)) (w1 w2 : ℕ)
    (depth max_depth : ℕ) (max_cost : ℚ) :
    ((compute_decision_tree_aggressive hints [w1, w2] depth max_depth max_cost).isSome
        = (compute_decision_tree_aggressive hints [w2, w1] depth max_depth max_cost).isSome)
    ∧ ((compute_decision_tree_aggressive hints [w1, w2] depth max_depth max_cost).map
          TreeNode.est_cost
        = (compute_decision_tree_aggressive hints [w2, w1] depth max_depth max_cost).map
          TreeNode.est_cost) := by
  unfold compute_decision_tree_aggressive
  cases hM : (max_depth % 256 + 256 - depth % 256) % 256 with
  | zero => exact ⟨rfl, rfl⟩
  | succ k =>
    simp only [ctda_go, List.length_cons, List.length_nil]
    split_ifs <;> exact ⟨rfl, rfl⟩

/-! ## C5: the depth bound of returned trees -/

theorem maxPathLen_mk (g : GuessFrom) (c : ℚ) (next : List (ℕ × TreeNode)) :
    (TreeNode.mk g c next).maxPathLen = 1 + TreeNode.maxPathLenList next := rfl

theorem maxPathLen_eq_next (t : TreeNode) :
    t.maxPathLen = 1 + TreeNode.maxPathLenList t.next := by
  cases t
  rfl

theorem maxPathLenList_append (l1 l2 : List (ℕ × TreeNode)) :
    TreeNode.maxPathLenList (l1 ++ l2)
      = max (TreeNode.maxPathLenList l1) (TreeNode.maxPathLenList l2) := by
  induction l1 with
  | nil =>
    show TreeNode.maxPathLenList l2 = max 0 (TreeNode.maxPathLenList l2)
    omega
  | cons p rest ih =>
    show max p.2.maxPathLen (TreeNode.maxPathLenList (rest ++ l2))
      = max (max p.2.maxPathLen (TreeNode.maxPathLenList rest)) (TreeNode.maxPathLenList l2)
    rw [ih]
    omega

theorem ctda_process_classes_go_bound (recur : List ℕ → ℚ → Option TreeNode) (B : ℕ)
    (hrec : ∀ hpa cost child, recur hpa cost = some child → TreeNode.maxPathLen child ≤ B)
    (pa : List ℕ) (gmax : ℚ) :
    ∀ (classes : List (ℕ × List ℕ)) (guess t : TreeNode),
      TreeNode.maxPathLen guess ≤ B + 1 →
      ctda_process_classes_go recur pa gmax classes guess = some t →
      TreeNode.maxPathLen t ≤ B + 1 := by
  intro classes
  induction classes with
  | nil =>
    intro guess t hg hsome
    simp only [ctda_process_classes_go] at hsome
    injection hsome with h
    rw [← h]
    exact hg
  | cons p rest ih =>
    rcases p with ⟨hint, hpa⟩
    intro guess t hg hsome
    simp only [ctda_process_classes_go] at hsome
    by_cases h0 : hint = 0
    · rw [if_pos h0] at hsome
      exact ih guess t hg hsome
    · rw [if_neg h0] at hsome
      cases hrecv : recur hpa
          ((gmax - guess.est_cost
              + (2 * (hpa.length : ℚ) - 1) / (pa.length : ℚ))
            / ((hpa.length : ℚ) / (pa.length : ℚ))) with
      | none =>
        simp only [hrecv] at hsome
        exact absurd hsome (by simp)
      | some child =>
        simp only [hrecv] at hsome
        by_cases hbudget : gmax ≤ (TreeNode.mk guess.should_guess
            (apply_child_cost guess.est_cost child.est_cost
              ((hpa.length : ℚ) / (pa.length : ℚ))
              ((2 * (hpa.length : ℚ) - 1) / (pa.length : ℚ)))
            (guess.next ++ [(hint, child)])).est_cost
        · rw [if_pos hbudget] at hsome
          exact absurd hsome (by simp)
        · rw [if_neg hbudget] at hsome
          apply ih _ t _ hsome
          rw [maxPathLen_mk, maxPathLenList_append]
          have hchild := hrec _ _ _ hrecv
          have hgnext : 1 + TreeNode.maxPathLenList guess.next ≤ B + 1 := by
            rw [← maxPathLen_eq_next]
            exact hg
          show 1 + max (TreeNode.maxPathLenList guess.next)
            (max child.maxPathLen (TreeNode.maxPathLenList [])) ≤ B + 1
          show 1 + max (TreeNode.maxPathLenList guess.next)
            (max child.maxPathLen 0) ≤ B + 1
          omega

theorem ctda_guess_loop_go_bound (recur : List ℕ → ℚ → Option TreeNode) (B : ℕ)
    (hrec : ∀ hpa cost child, recur hpa cost = some child → TreeNode.maxPathLen child ≤ B)
    (hints : List (List ℕ)) (pa : List ℕ) :
    ∀ (order : List ℕ) (best : Option TreeNode) (gmax : ℚ) (t : TreeNode),
      (∀ b, best = some b → TreeNode.maxPathLen b ≤ B + 1) →
      ctda_guess_loop_go recur hints pa order best gmax = some t →
      TreeNode.maxPathLen t ≤ B + 1 := by
  intro order
  induction order with
  | nil =>
    intro best gmax t hbest hsome
    exact hbest t hsome
  | cons guess_ind rest ih =>
    intro best gmax t hbest hsome
    simp only [ctda_guess_loop_go] at hsome
    by_cases huseless : guess_is_useless (hints.getD guess_ind []) pa = true
    · rw [if_pos huseless] at hsome
      exact ih best gmax t hbest hsome
    · rw [if_neg huseless] at hsome
      by_cases hskip : gmax ≤ (if (answers_by_hint (hints.getD guess_ind []) pa).any
            (fun p => p.1 = 0) = true then
          3 - ((((answers_by_hint (hints.getD guess_ind []) pa).mergeSort
              (fun p q => p.2.length ≤ q.2.length)).length + 1 : ℚ) / (pa.length : ℚ))
        else
          3 - ((((answers_by_hint (hints.getD guess_ind []) pa).mergeSort
              (fun p q => p.2.length ≤ q.2.length)).length : ℚ) / (pa.length : ℚ)))
      · rw [if_pos hskip] at hsome
        exact ih best gmax t hbest hsome
      · rw [if_neg hskip] at hsome
        cases hp : ctda_process_classes_go recur pa gmax
            (match ((answers_by_hint (hints.getD guess_ind []) pa).mergeSort
                (fun p q => p.2.length ≤ q.2.length)).findIdx?
                (fun p => decide (3 ≤ p.2.length)) with
              | some split_ind => ((answers_by_hint (hints.getD guess_ind []) pa).mergeSort
                  (fun p q => p.2.length ≤ q.2.length)).rotateLeft split_ind
              | none => (answers_by_hint (hints.getD guess_ind []) pa).mergeSort
                  (fun p q => p.2.length ≤ q.2.length))
            (TreeNode.mk (GuessFrom.Guess guess_ind)
              (if (answers_by_hint (hints.getD guess_ind []) pa).any
                  (fun p => p.1 = 0) = true then
                3 - ((((answers_by_hint (hints.getD guess_ind []) pa).mergeSort
                    (fun p q => p.2.length ≤ q.2.length)).length + 1 : ℚ) / (pa.length : ℚ))
              else
                3 - ((((answers_by_hint (hints.getD guess_ind []) pa).mergeSort
                    (fun p q => p.2.length ≤ q.2.length)).length : ℚ) / (pa.length : ℚ)))
              []) with
        | none =>
          simp only [hp] at hsome
          exact ih best gmax t hbest hsome
        | some guess =>
          simp only [hp] at hsome
          have hguess : TreeNode.maxPathLen guess ≤ B + 1 := by
            apply ctda_process_classes_go_bound recur B hrec pa gmax _ _ guess _ hp
            rw [maxPathLen_mk]
            show 1 + 0 ≤ B + 1
            omega
          cases hnb : (match best with
              | some best_guess => decide (guess.est_cost < best_guess.est_cost)
              | none => true) with
          | true =>
            rw [hnb] at hsome
            simp only [if_true] at hsome
            apply ih (some guess) guess.est_cost t _ hsome
            intro b hb
            injection hb with hb
            rw [← hb]
            exact hguess
          | false =>
            rw [hnb] at hsome
            simp only [Bool.false_eq_true, if_false] at hsome
            exact ih best gmax t hbest hsome

theorem ctda_go_path_bound :
    ∀ (fuel : ℕ) (hints : List (List ℕ)) (pa : List ℕ) (depth max_depth : ℕ)
      (max_cost : ℚ) (t : TreeNode),
      fuel = (max_depth % 256 + 256 - depth % 256) % 256 →
      ctda_go fuel hints pa depth max_depth max_cost = some t →
      TreeNode.maxPathLen t ≤ fuel := by
  intro fuel
  induction fuel with
  | zero =>
    intro hints pa depth max_depth max_cost t _ hsome
    exact absurd hsome (by simp [ctda_go])
  | succ k ih =>
    intro hints pa depth max_depth max_cost t hfuel hsome
    simp only [ctda_go] at hsome
    by_cases h1 : depth % 256 = max_depth % 256
    · rw [if_pos h1] at hsome
      exact absurd hsome (by simp)
    rw [if_neg h1] at hsome
    by_cases h2 : max_cost < 1
    · rw [if_pos h2] at hsome
      exact absurd hsome (by simp)
    rw [if_neg h2] at hsome
    by_cases h3 : pa.length = 1
    · rw [if_pos h3] at hsome
      injection hsome with h
      rw [← h, maxPathLen_mk]
      show 1 + 0 ≤ k + 1
      omega
    rw [if_neg h3] at hsome
    by_cases h4 : depth % 256 = (max_depth % 256 + 255) % 256
    · rw [if_pos h4] at hsome
      exact absurd hsome (by simp)
    rw [if_neg h4] at hsome
    by_cases h5 : max_cost < 3 / 2
    · rw [if_pos h5] at hsome
      exact absurd hsome (by simp)
    rw [if_neg h5] at hsome
    by_cases h6 : pa.length = 2
    · rw [if_pos h6] at hsome
      injection hsome with h
      rw [← h, maxPathLen_mk]
      have hk : 1 ≤ k := by omega
      show 1 + max (TreeNode.mk (GuessFrom.Answer (pa.getD 1 0)) 1 []).maxPathLen 0 ≤ k + 1
      rw [maxPathLen_mk]
      show 1 + max (1 + 0) 0 ≤ k + 1
      omega
    rw [if_neg h6] at hsome
    apply ctda_guess_loop_go_bound _ k _ hints pa _ none max_cost t _ hsome
    · intro hpa cost child hchild
      exact ih hints hpa (depth % 256 + 1) (max_depth % 256) cost child (by omega) hchild
    · intro b hb
      exact absurd hb (by simp)

/-- **C5 (counterexample).** Called with `depth = 1` already beyond
`max_depth = 0`, the singleton shortcut still fires (the first guard only
tests `depth == max_depth`), returning a one-node tree although the claimed
bound `max_depth − depth` admits none. -/
theorem ctda_depth_bound_counterexample :
    compute_decision_tree_aggressive [[0]] [0] 1 0 5
        = some (TreeNode.mk (GuessFrom.Answer 0) 1 [])
    ∧ ¬(TreeNode.maxPathLen (TreeNode.mk (GuessFrom.Answer 0) 1 []) ≤ 0 - 1) :=
  ⟨rfl, by decide⟩

/-- **C5 (amended).** Whenever the solver is called with `depth ≤ max_depth`
(and `max_depth` within the `u8` range) and returns `Some` tree, every
root-to-leaf path of that tree contains at most `max_depth − depth` nodes; in
particular a tree returned from the root (`depth = 0`) has every path of
length at most `max_depth`. -/
theorem ctda_depth_bound (hints : List (List ℕ)) (pa : List ℕ)
    (depth max_depth : ℕ) (max_cost : ℚ) (t : TreeNode)
    (hdm : depth ≤ max_depth) (hm : max_depth < 256)
    (hsome : compute_decision_tree_aggressive hints pa depth max_depth max_cost = some t) :
    TreeNode.maxPathLen t + depth ≤ max_depth := by
  unfold compute_decision_tree_aggressive at hsome
  have hb := ctda_go_path_bound _ hints pa depth max_depth max_cost t rfl hsome
  omega

/-- Witness for the amended C5: the concrete pair tree returned at `depth = 0`,
`max_depth = 4` has longest path `2 ≤ 4`. -/
theorem ctda_depth_bound_witness :
    TreeNode.maxPathLen (TreeNode.mk (GuessFrom.Answer 0) (3 / 2)
        [(5, TreeNode.mk (GuessFrom.Answer 1) 1 [])]) + 0 ≤ 4 := by
  apply ctda_depth_bound [[0, 5], [5, 0]] [0, 1] 0 4 10 _ (by omega) (by omega)
  show ctda_go ((4 % 256 + 256 - 0 % 256) % 256) [[0, 5], [5, 0]] [0, 1] 0 4 10 = _
  norm_num
  show ctda_go (3 + 1) [[0, 5], [5, 0]] [0, 1] 0 4 10 = _
  rw [ctda_go]
  norm_num
